import Mathlib

/-!
# Verification development for the memory-service retrieval core

Shallow embedding of the Python memory service (`app/ranking.py`,
`app/memory.py`, `app/skill_engine.py`, `app/graph_engine.py`, `app/ttl.py`)
into Lean, together with proofs and refutations of the specified properties.

Modelling conventions:
* Python floats are modelled as exact rationals (`ℚ`); `round(x, 4)` is
  modelled as rounding `x * 10^4` to the nearest integer (Python uses
  round-half-even on binary floats; no property below depends on the
  behaviour at an exact tie).
* Python strings are Lean `String`s; `.strip()` / `.lower()` are modelled by
  the char-list functions `pyStrip` / `pyLower` below.
* The vector backend (Qdrant) is external: query results are passed to the
  embedded functions as explicit lists of hits, and a backend failure is an
  `Except.error`.  Collections are modelled as lists of records in storage
  order; `add` is modelled as an append (point ids are fresh UUIDs).
* Dynamic metadata dicts are association lists `List (String × MetaVal)`
  where lookup returns the first binding, so `dict.update(other)` is
  modelled by prepending `other`.
* Wall-clock timestamps are external inputs (the caller passes the ISO
  string, the numeric epoch time, or the already-computed age in days).
-/

/-! ## Python string primitives -/

/-- Python `str.lower()` (ASCII-level model). -/
def pyLower (s : String) : String := ⟨s.data.map Char.toLower⟩

/-- Python `str.strip()`: remove leading and trailing whitespace. -/
def pyStrip (s : String) : String :=
  ⟨((s.data.dropWhile Char.isWhitespace).reverse.dropWhile Char.isWhitespace).reverse⟩

/-- Python's `pat in s` substring test, on char lists. -/
def charsContain (pat : List Char) : List Char → Bool
  | [] => pat.isEmpty
  | c :: rest => pat.isPrefixOf (c :: rest) || charsContain pat rest

/-- Python's `tok in text` substring test on strings. -/
def pyInStr (tok text : String) : Bool := charsContain tok.data text.data

/-- Python `str.split()` (split on whitespace runs, dropping empty pieces),
returned as char lists. -/
def wsSplitChars : List Char → List (List Char)
  | [] => []
  | c :: rest =>
    if c.isWhitespace then wsSplitChars rest
    else
      match wsSplitChars rest with
      | [] => [[c]]
      | t :: ts =>
        match rest with
        | [] => [[c]]
        | r :: _ => if r.isWhitespace then [c] :: t :: ts else (c :: t) :: ts

/-- Python `s.split()` as strings. -/
def pySplitWs (s : String) : List String := (wsSplitChars s.data).map (⟨·⟩)

/-! ## Ranking engine (`app/ranking.py`)

Configured weights are embedded at their documented defaults
(`SEARCH_SEMANTIC_WEIGHT = 0.8`, `SEARCH_KEYWORD_WEIGHT = 0.2`,
`RANK_WEIGHT_* = 0.55/0.15/0.15/0.10/0.05`, `RECENCY_WINDOW_DAYS = 30`). -/

/-- `max(0.0, min(1.0, v))` as used throughout the ranking code. -/
def clamp01 (q : ℚ) : ℚ := max 0 (min 1 q)

/-- Python `round(x, 4)`. -/
def round4 (q : ℚ) : ℚ := (round (q * 10000) : ℚ) / 10000

/-- The fields of a metadata dict that `build_rank_score` reads.
`importance`/`reliability`/`frequency` are `some q` when Python's
`float(value)` succeeds (`_safe_float`), `none` when the key is absent or
non-numeric.  `createdAtAgeDays` is `some age` when `created_at` parses as
an ISO timestamp `age` days old (possibly negative for future stamps),
`none` when absent or unparsable.  `priority` is the raw `priority` tag. -/
structure RankMeta where
  importance : Option ℚ
  reliability : Option ℚ
  frequency : Option ℚ
  createdAtAgeDays : Option ℚ
  priority : Option String
deriving DecidableEq

/-- `_recency_score`: neutral 0.5 on a missing/bad timestamp, otherwise
`clamp(1 - age_days/window, 0, 1)` with the age clamped at 0 first. -/
def recency_score (createdAtAgeDays : Option ℚ) : ℚ :=
  match createdAtAgeDays with
  | none => 1/2
  | some rawAge =>
    let age := max rawAge 0
    let window : ℚ := max 30 1
    max 0 (min 1 (1 - age / window))

/-- `build_rank_score(relevance_score, metadata)`: the composite retrieval
score.  Note: the source computes exactly these five weighted terms; the
`priority` tag and `RANK_WEIGHT_PRIORITY` are not used. -/
def build_rank_score (relevance_score : ℚ) (m : RankMeta) : ℚ :=
  let relevance := clamp01 relevance_score
  let importance := clamp01 (m.importance.getD (1/2))
  let reliability := clamp01 (m.reliability.getD (1/2))
  let frequency := clamp01 (m.frequency.getD (1/2))
  let recency := recency_score m.createdAtAgeDays
  let total := relevance * (55/100) + importance * (15/100) + reliability * (15/100)
      + recency * (10/100) + frequency * (5/100)
  round4 (clamp01 total)

/-- `blend_relevance_scores(semantic, keyword)` with the default weights. -/
def blend_relevance_scores (semantic_relevance keyword_relevance : ℚ) : ℚ :=
  let semantic := clamp01 semantic_relevance
  let keyword := clamp01 keyword_relevance
  let semantic_weight : ℚ := max (8/10) 0
  let keyword_weight : ℚ := max (2/10) 0
  let total_weight := semantic_weight + keyword_weight
  if total_weight ≤ 0 then semantic
  else round4 (clamp01 ((semantic * semantic_weight + keyword * keyword_weight) / total_weight))

/-- `MemoryStore._keyword_relevance(query, text)`: fraction of the distinct
case-folded query tokens that occur as substrings of the lowered text. -/
def keyword_relevance (query text : String) : ℚ :=
  if query = "" ∨ text = "" then 0
  else
    let query_tokens := (((pySplitWs query).filter fun t => pyStrip t ≠ "").map
        fun t => pyLower (pyStrip t)).dedup
    if query_tokens = [] then 0
    else
      let text_lc := pyLower text
      ((query_tokens.countP fun t => pyInStr t text_lc : ℕ) : ℚ) / query_tokens.length

/-- Modelled from the spec: `resolve_priority_score` and
`MEMORY_PRIORITY_SCORES` are imported from `app.ranking` by `app/memory.py`
and exercised by `tests/test_ranking.py`, but are absent from the
`src/` copy of `app/ranking.py`.  The spec fixes only the strict ordering
critical > pinned > reinforced > normal > archived; the concrete scores
below are representative values realizing that ordering. -/
def MEMORY_PRIORITY_SCORES : List (String × ℚ) :=
  [("critical", 1), ("pinned", 8/10), ("reinforced", 6/10), ("normal", 4/10), ("archived", 2/10)]

/-- Modelled from the spec: case-insensitive, whitespace-trimmed lookup in
`MEMORY_PRIORITY_SCORES`; unknown tags resolve to the score of `"normal"`.
Total by construction (never an error). -/
def resolve_priority_score (tag : String) : ℚ :=
  match MEMORY_PRIORITY_SCORES.lookup (pyLower (pyStrip tag)) with
  | some q => q
  | none => (MEMORY_PRIORITY_SCORES.lookup "normal").getD 0

section RankingSanity

example : pyLower "ABC def" = "abc def" := by decide

example : pyStrip "  x y " = "x y" := by decide

example : pySplitWs "  a bb  c " = ["a", "bb", "c"] := by decide

example : pyInStr "bb" "a bbc" = true := by decide

example : pyInStr "zz" "a bbc" = false := by decide

example : keyword_relevance "Port nope" "the port is 80" = 1/2 := by
  have h : keyword_relevance "Port nope" "the port is 80" = ((1 : ℕ) : ℚ) / ((2 : ℕ) : ℚ) := rfl
  rw [h]
  norm_num

example : resolve_priority_score " CRITICAL " = 1 := rfl

example : resolve_priority_score "unknown-tag" = 4/10 := rfl

end RankingSanity

/-! ## Dynamic metadata dictionaries

Qdrant payload metadata is a JSON-like dict.  We model the values that the
store writes and reads; lookup returns the first binding, and Python's
`dict.update(other)` (later keys win) is modelled by prepending `other`. -/

/-- A metadata value: string, number (int/float as exact `ℚ`), bool, null. -/
inductive MetaVal where
  | str (s : String)
  | num (q : ℚ)
  | bool (b : Bool)
  | null
deriving DecidableEq

/-- A metadata dict as an association list; first binding wins on lookup. -/
abbrev MetaDict := List (String × MetaVal)

/-- `d.get(k)` returning `none` when the key is absent. -/
def dictGet (d : MetaDict) (k : String) : Option MetaVal := d.lookup k

/-- `d[k] = v`: a single-key overwrite (shadows any earlier binding). -/
def dictSet (d : MetaDict) (k : String) (v : MetaVal) : MetaDict := (k, v) :: d

/-- `base.update(extra)`: every key of `extra` overrides `base`. -/
def dictUpdate (base extra : MetaDict) : MetaDict := extra ++ base

/-- Truncation toward zero, as Python's `int(float)`. -/
def ratTrunc (q : ℚ) : Int := if q < 0 then ⌈q⌉ else ⌊q⌋

/-- `MemoryStore._as_int(value, default)`: Python `int(value)` with the
default on `TypeError`/`ValueError`.  (`int(" 5 ")` strips spaces in
Python; the string case here is modelled by `String.toInt?`.) -/
def as_int (v : Option MetaVal) (default : Int) : Int :=
  match v with
  | some (.num q) => ratTrunc q
  | some (.str s) => (s.toInt?).getD default
  | some (.bool b) => if b then 1 else 0
  | some .null => default
  | none => default

/-- `MemoryStore._is_active_learning(meta)`:
`meta.get("status", "active") == "active"` (a non-string status value
compares unequal to `"active"` in Python). -/
def is_active_meta (m : MetaDict) : Bool :=
  match dictGet m "status" with
  | none => true
  | some (.str s) => s = "active"
  | some _ => false

/-! ## Contradiction detector (`app/memory.py`, `_detect_contradictions`)

The similarity query against the backend is external: the embedded function
receives the ranked hits (aligned id/document/distance/payload records) or
an `Except.error` when the backend raised.  Configured values are embedded
at their defaults (`CONTRADICTION_SIMILARITY_THRESHOLD = 0.85`,
`CONTRADICTION_TOP_K = 3`); the threshold is kept as a parameter so the
property can be stated for every configured value. -/

/-- One ranked hit from a similarity query.  `status` is
`meta.get("status")` (a non-string stored status behaves like any
non-`"active"` value and is modelled by such a string); `priority` is
`meta.get("priority")`; `rank` carries the fields `build_rank_score`
reads; `learningKey` is `str(meta.get("learning_key", ""))`. -/
structure Hit where
  id : String
  doc : String
  dist : ℚ
  status : Option String
  priority : Option String
  learningKey : String
  rank : RankMeta
deriving DecidableEq

/-- `meta.get("status", "active") == "active"` for a query hit. -/
def hit_is_active (h : Hit) : Bool := h.status.getD "active" = "active"

/-- A recorded contradiction `{id, text, similarity, learning_key}`. -/
structure ContradictionRec where
  id : String
  text : String
  similarity : ℚ
  learning_key : String
deriving DecidableEq

/-- The default `CONTRADICTION_SIMILARITY_THRESHOLD`. -/
def contradictionThreshold : ℚ := 85/100

/-- `MemoryStore._detect_contradictions`: `count` is
`learnings_collection.count()`; `queryRes` is the backend similarity query
result (`.error` when the backend raised — caught, logged, empty result). -/
def detect_contradictions (count : ℕ) (threshold : ℚ)
    (queryRes : Except Unit (List Hit)) (text : String)
    (exclude_id : Option String) : List ContradictionRec :=
  if count = 0 then []
  else
    match queryRes with
    | .error _ => []
    | .ok hits =>
      let normalized_text := pyLower (pyStrip text)
      hits.filterMap fun h =>
        if exclude_id = some h.id then none
        else if ¬ hit_is_active h then none
        else
          let similarity := max 0 (1 - h.dist)
          if similarity ≥ threshold ∧ pyLower (pyStrip h.doc) ≠ normalized_text then
            some ⟨h.id, h.doc, round4 similarity, h.learningKey⟩
          else none

/-- The record `_detect_contradictions` appends for a flagged hit. -/
def contradiction_of (h : Hit) : ContradictionRec :=
  ⟨h.id, h.doc, round4 (max 0 (1 - h.dist)), h.learningKey⟩

/-! ## Knowledge store (`app/memory.py`)

The learnings collection is a list of entries in storage order.  UUIDs and
timestamps are external inputs.  Audit logging writes to a separate
collection and is not modelled (no claim concerns it). -/

/-- One stored record: point id, document text, payload metadata. -/
structure Entry where
  id : String
  doc : String
  meta : MetaDict
deriving DecidableEq

/-- A collection's content in storage order. -/
abbrev Store := List Entry

/-- `MemoryStore._build_learning_key(model_name, category, text)`:
`f"{model_name.strip().lower()}::{category.strip().lower()}"` (the text is
deliberately ignored). -/
def build_learning_key (model_name category : String) : String :=
  pyLower (pyStrip model_name) ++ "::" ++ pyLower (pyStrip category)

/-- Boolean test: entry carries the given learning key. -/
def has_learning_key (key : String) (e : Entry) : Bool :=
  dictGet e.meta "learning_key" = some (.str key)

/-- `MemoryStore._find_latest_learning_version`: among the entries with the
key, keep the active ones and take the maximum by integer version
(default 1); Python's `max` returns the first maximal element. -/
def find_latest_learning_version (store : Store) (key : String) : Option Entry :=
  let candidates := (store.filter (has_learning_key key)).filter fun e => is_active_meta e.meta
  match candidates with
  | [] => none
  | c :: cs =>
    some (cs.foldl (fun best e =>
      if as_int (dictGet e.meta "version") 1 > as_int (dictGet best.meta "version") 1
      then e else best) c)

/-- `workspace_id or metadata.get("workspace_id") or "default"` (Python
truthiness on the argument and on a string-valued metadata entry; a
non-string metadata workspace value is not produced by any store path and
is modelled by the default). -/
def norm_workspace (workspace_id : Option String) (extra : MetaDict) : String :=
  let fromMeta :=
    match dictGet extra "workspace_id" with
    | some (.str s) => if s ≠ "" then s else "default"
    | _ => "default"
  match workspace_id with
  | some s => if s ≠ "" then s else fromMeta
  | none => fromMeta

/-- `MemoryStore.get_learning_metadata(learning_id)`: metadata of the first
record with that id (`{}` when absent). -/
def get_learning_metadata (store : Store) (learning_id : String) : MetaDict :=
  match store.find? (fun e => e.id = learning_id) with
  | some e => e.meta
  | none => []

/-- The superseding update applied to the current latest version: set
`status = "superseded"`, record `superseded_at` and `superseded_by`, leave
every other record untouched. -/
def mark_superseded (latest_id newId nowIso : String) (x : Entry) : Entry :=
  if x.id = latest_id then
    { x with
      meta := dictSet (dictSet (dictSet x.meta "status" (.str "superseded"))
        "superseded_at" (.str nowIso)) "superseded_by" (.str newId) }
  else x

/-- The learning key `add_learning` computes: the model component is
`f"{normalized_workspace}:{model_name}"`. -/
def add_learning_key (ws model_name category : String) : String :=
  build_learning_key (ws ++ ":" ++ model_name) category

/-- The metadata dict literal `add_learning` builds for the new entry
(before the caller metadata is merged over it).  The `contradictions_json`
payload is an opaque serialization, modelled by a marker string. -/
def add_learning_base_meta (model_name agent_name category ws learning_key : String)
    (next_version : Int) (nowIso : String) (conflict_detected : Bool)
    (previous_version_id : Option String) (contradictions : List ContradictionRec) :
    MetaDict :=
  [("model_name", .str model_name),
   ("agent_name", .str agent_name),
   ("category", .str category),
   ("workspace_id", .str ws),
   ("learning_key", .str learning_key),
   ("version", .num (next_version : ℚ)),
   ("status", .str "active"),
   ("created_at", .str nowIso),
   ("conflict_detected", .bool conflict_detected),
   ("previous_version_id", .str (previous_version_id.getD "")),
   ("contradictions_count", .num (contradictions.length : ℚ)),
   ("contradictions_json", .str (if contradictions.isEmpty then "" else "<json>"))]

/-- `MemoryStore.add_learning`.  External inputs: `newId` (the generated
UUID), `nowIso` (the ISO timestamp `_utc_now_iso()` would return), and
`contraQuery` (the backend result feeding `_detect_contradictions`).
Returns the updated collection and the returned id (`""` on blank text). -/
def add_learning (store : Store) (text model_name agent_name category : String)
    (extraMeta : MetaDict) (workspace_id : Option String)
    (newId nowIso : String) (contraQuery : Except Unit (List Hit)) :
    Store × String :=
  if pyStrip text = "" then (store, "")
  else
    let ws := norm_workspace workspace_id extraMeta
    let learning_key := add_learning_key ws model_name category
    let latest := find_latest_learning_version store learning_key
    let next_version : Int :=
      match latest with
      | some e => as_int (dictGet e.meta "version") 1 + 1
      | none => 1
    let conflict_detected : Bool :=
      match latest with
      | some e => pyStrip e.doc ≠ pyStrip text
      | none => false
    let store1 :=
      match latest with
      | some e => store.map (mark_superseded e.id newId nowIso)
      | none => store
    let contradictions :=
      detect_contradictions store.length contradictionThreshold contraQuery text
        (latest.map (·.id))
    let learning_metadata := dictUpdate
      (add_learning_base_meta model_name agent_name category ws learning_key next_version
        nowIso conflict_detected (latest.map (·.id)) contradictions) extraMeta
    (store1 ++ [⟨newId, text, learning_metadata⟩], newId)

/-- The combined "entry carries the key and is active" test:
the candidate set of `_find_latest_learning_version`. -/
def active_with_key (key : String) (e : Entry) : Bool :=
  has_learning_key key e && is_active_meta e.meta

/-- `int(meta.get("version", 1))` of the stored metadata of `id` — the
version number the transport layer reports after `add_learning`. -/
def assigned_version (store : Store) (learning_id : String) : Int :=
  as_int (dictGet (get_learning_metadata store learning_id) "version") 1

/-- The per-call external inputs of one `add_learning` invocation in a
sequence of calls sharing model/agent/category/workspace. -/
structure LearnCall where
  text : String
  extra : MetaDict
  newId : String
  nowIso : String
  query : Except Unit (List Hit)

instance : Inhabited LearnCall := ⟨⟨"", [], "", "", Except.error ()⟩⟩

/-- The version number the transport layer reports for each call of a
sequence of `add_learning` calls, in call order. -/
def assigned_versions (model_name agent_name category : String)
    (workspace_id : Option String) : Store → List LearnCall → List Int
  | _, [] => []
  | s, c :: cs =>
    let s' := (add_learning s c.text model_name agent_name category c.extra workspace_id
      c.newId c.nowIso c.query).1
    assigned_version s' c.newId
      :: assigned_versions model_name agent_name category workspace_id s' cs

/-- Run a sequence of `add_learning` calls sharing model, agent, category
and workspace argument against a store. -/
def run_add_learnings (model_name agent_name category : String)
    (workspace_id : Option String) : Store → List LearnCall → Store
  | s, [] => s
  | s, c :: cs =>
    run_add_learnings model_name agent_name category workspace_id
      (add_learning s c.text model_name agent_name category c.extra workspace_id
        c.newId c.nowIso c.query).1 cs

/-! ## TTL manager (`app/ttl.py`)

`get_expired_ids` computes `cutoff_ts = time.time() - ttl_days * 86400`;
the wall clock is the external input `now_ts` (epoch seconds). -/

/-- The numeric view Python's `isinstance(created_at, (int, float))` takes
of a stored `created_at` (a `bool` is an `int` in Python). -/
def created_at_num (e : Entry) : Option ℚ :=
  match (dictGet e.meta "created_at").getD (.num 0) with
  | .num q => some q
  | .bool b => some (if b then 1 else 0)
  | _ => none

/-- `TTLManager.get_expired_ids(collection, ttl_days)` over the collection
content: ids whose stored numeric creation stamp is positive and older than
the cutoff.  `ttl_days <= 0` disables expiry. -/
def get_expired_ids (entries : Store) (ttl_days : Int) (now_ts : ℚ) : List String :=
  if ttl_days ≤ 0 then []
  else
    let cutoff_ts : ℚ := now_ts - (ttl_days : ℚ) * 86400
    entries.filterMap fun e =>
      match created_at_num e with
      | some q => if 0 < q ∧ q < cutoff_ts then some e.id else none
      | none => none

/-- The per-collection branch of `TTLManager.cleanup_expired`: hard-delete
the expired ids, return the remaining collection and the deleted count. -/
def cleanup_expired (entries : Store) (ttl_days : Int) (now_ts : ℚ) : Store × ℕ :=
  let expired := get_expired_ids entries ttl_days now_ts
  if expired.isEmpty then (entries, 0)
  else (entries.filter (fun e => ¬ expired.contains e.id), expired.length)

/-! ## Stable descending sort

Python's `list.sort(key=..., reverse=True)` is a stable descending sort;
a stable sort is uniquely determined by the comparator and stability, so it
is modelled by a stable insertion sort (`le x y` = "x may stay before y"). -/

/-- Insert `x` before the first element it may precede. -/
def insertStable {α : Type} (le : α → α → Bool) (x : α) : List α → List α
  | [] => [x]
  | y :: ys => if le x y then x :: y :: ys else y :: insertStable le x ys

/-- Stable insertion sort. -/
def sortStable {α : Type} (le : α → α → Bool) : List α → List α
  | [] => []
  | x :: xs => insertStable le x (sortStable le xs)

/-! ## Search pipeline (`MemoryStore.search_facts` / `search_learnings`)

The embedding of the query and the backend similarity calls are external:
the functions receive the hit lists the backend returned for each
collection.  The early `count() == 0` returns and the metrics bookkeeping
do not affect the returned items and are not modelled. -/

/-- One structured search result.  The original dict carries the full
metadata payload; the embedding keeps the projections the pipeline and the
claims read (`status`, `priority`). -/
structure SearchItem where
  id : String
  text : String
  score : ℚ
  source : String
  status : Option String
  priority : Option String
deriving DecidableEq

/-- Scoring of one hit: semantic `max(0, 1-distance)`, keyword overlap,
relevance blend, then the composite rank score. -/
def hit_to_item (source query : String) (h : Hit) : SearchItem :=
  let semantic_relevance := max 0 (1 - h.dist)
  let keyword := keyword_relevance query h.doc
  let relevance := blend_relevance_scores semantic_relevance keyword
  { id := h.id, text := h.doc, score := build_rank_score relevance h.rank,
    source := source, status := h.status, priority := h.priority }

/-- First-occurrence deduplication by result text (`seen` set). -/
def dedup_by_text : List SearchItem → List String → List SearchItem
  | [], _ => []
  | x :: xs, seen =>
    if seen.contains x.text then dedup_by_text xs seen
    else x :: dedup_by_text xs (x.text :: seen)

/-- The `min_priority` filter (`if min_priority:` — an absent or empty tag
disables it): keep items whose resolved priority score reaches the resolved
threshold; an item without a priority tag defaults to `"normal"`. -/
def min_priority_filter (min_priority : Option String) (items : List SearchItem) :
    List SearchItem :=
  match min_priority with
  | none => items
  | some mp =>
    if mp = "" then items
    else
      let threshold := resolve_priority_score mp
      items.filter fun it => resolve_priority_score (it.priority.getD "normal") ≥ threshold

/-- Descending stable sort by composite score. -/
def sort_by_score_desc (items : List SearchItem) : List SearchItem :=
  sortStable (fun a b => b.score ≤ a.score) items

/-- `MemoryStore.search_facts`: score the facts hits (and, when
`include_files`, the files hits), merge, deduplicate by text, apply the
optional `min_priority` filter, sort by score descending.  Note: no
lifecycle-status filtering happens on this path. -/
def search_facts (facts_hits files_hits : List Hit) (include_files : Bool)
    (query : String) (min_priority : Option String) : List SearchItem :=
  let results := facts_hits.map (hit_to_item "facts" query)
      ++ (if include_files then files_hits.map (hit_to_item "files" query) else [])
  let unique := dedup_by_text results []
  sort_by_score_desc (min_priority_filter min_priority unique)

/-- `MemoryStore.search_learnings`: score the hits, keeping only entries
that pass `_is_active_learning`, apply the optional `min_priority` filter,
sort by score descending. -/
def search_learnings (hits : List Hit) (query : String)
    (min_priority : Option String) : List SearchItem :=
  let items := hits.filterMap fun h =>
    if hit_is_active h then some (hit_to_item "learnings" query h) else none
  sort_by_score_desc (min_priority_filter min_priority items)

/-! ## Skill engine (`app/skill_engine.py`, `record_usage`)

The record lookup is external; the embedded function takes the stored
skill metadata fields it reads and writes.  The boost rate is the
source literal `0.05`. -/

/-- The skill metadata fields `record_usage` touches. -/
structure SkillMeta where
  status : String
  usage_count : Int
  confidence : ℚ
deriving DecidableEq

/-- `SkillEngine.record_usage` on a found record: `False` (no change)
unless the status is active; otherwise increment the usage counter and set
`confidence = round(min(1.0, c + (1.0 - c) * 0.05), 4)`. -/
def record_usage (m : SkillMeta) : Bool × SkillMeta :=
  if m.status ≠ "active" then (false, m)
  else
    let confidence_boost : ℚ := 5/100
    let new_confidence := min 1 (m.confidence + (1 - m.confidence) * confidence_boost)
    (true,
      { status := m.status, usage_count := m.usage_count + 1,
        confidence := round4 new_confidence })

/-! ## Graph engine (`app/graph_engine.py`)

The relationships collection holds only relationship records (every payload
carries `type = "relationship"`); it is modelled as a list of edges in
storage order.  Configured limits are embedded at their defaults
(`GRAPH_MAX_DEPTH = 3`, `GRAPH_MAX_NEIGHBORS = 20`). -/

/-- A stored relationship edge (the fields traversal reads). -/
structure RelEdge where
  id : String
  source_id : String
  target_id : String
  relationship_type : String
deriving DecidableEq

/-- The relationships collection in storage order. -/
abbrev Graph := List RelEdge

/-- `GRAPH_MAX_DEPTH` default. -/
def GRAPH_MAX_DEPTH : ℕ := 3

/-- `GRAPH_MAX_NEIGHBORS` default. -/
def GRAPH_MAX_NEIGHBORS : ℕ := 20

/-- The optional pushed-down `relationship_type` condition of a
`get_neighbors` filter. -/
def rel_type_matches (t : Option String) (r : RelEdge) : Bool :=
  match t with
  | none => true
  | some ty => r.relationship_type = ty

/-- `GraphEngine.get_neighbors(node_id, relationship_type, max_results)`:
two filtered scans (`source_id = node`, then `target_id = node`), the
second appended while skipping edge ids already collected, capped at the
limit (default `GRAPH_MAX_NEIGHBORS`). -/
def get_neighbors (g : Graph) (node_id : String) (relationship_type : Option String)
    (max_results : Option ℕ) : List RelEdge :=
  let limit := max_results.getD GRAPH_MAX_NEIGHBORS
  let source_res := g.filter fun r =>
    r.source_id = node_id ∧ rel_type_matches relationship_type r
  let target_res := g.filter fun r =>
    r.target_id = node_id ∧ rel_type_matches relationship_type r
  let merged := target_res.foldl
    (fun acc r => if acc.any (fun x => x.id = r.id) then acc else acc ++ [r]) source_res
  merged.take limit

/-- The single-type pushdown: used when exactly one relationship type is
requested (`relationship_types[0] if ... len(...) == 1 else None`). -/
def pushdown_type (types : Option (List String)) : Option String :=
  match types with
  | some [t] => some t
  | _ => none

/-- The client-side filter applied when more than one type is requested. -/
def client_type_filter (types : Option (List String)) (rels : List RelEdge) : List RelEdge :=
  match types with
  | some ts => if 1 < ts.length then rels.filter (fun r => ts.contains r.relationship_type) else rels
  | none => rels

/-- `min(max_depth or settings.GRAPH_MAX_DEPTH, settings.GRAPH_MAX_DEPTH)`:
Python's `or` maps both `None` and `0` to the configured ceiling. -/
def effective_depth_limit (max_depth : Option ℕ) : ℕ :=
  min (match max_depth with
       | none => GRAPH_MAX_DEPTH
       | some d => if d = 0 then GRAPH_MAX_DEPTH else d)
    GRAPH_MAX_DEPTH

/-- A node recorded by the traversal, with its neighbor list. -/
structure TravNode where
  node_id : String
  depth : ℕ
  relationships : List RelEdge
deriving DecidableEq

/-- The BFS loop state: pending queue, visited set, recorded nodes and the
two counters. -/
structure BfsState where
  queue : List (String × ℕ)
  visited : List String
  nodes : List TravNode
  total_relationships : ℕ
  max_depth_reached : ℕ
deriving DecidableEq

/-- The neighbor-enqueueing inner loop: for each relationship pick the far
end, and enqueue it when unseen and the node budget
`len(nodes) + len(queue) < max_nodes` still holds. -/
def enqueue_neighbors (current_id : String) (next_depth nodes_len max_nodes : ℕ)
    (neighbors : List RelEdge) (visited : List String) (queue : List (String × ℕ)) :
    List String × List (String × ℕ) :=
  neighbors.foldl
    (fun vq r =>
      let neighbor_id := if r.source_id = current_id then r.target_id else r.source_id
      if ¬ vq.1.contains neighbor_id ∧ nodes_len + vq.2.length < max_nodes then
        (neighbor_id :: vq.1, vq.2 ++ [(neighbor_id, next_depth)])
      else vq)
    (visited, queue)

/-- One iteration of the BFS while-loop body, given the dequeued pair and
the rest of the queue. -/
def bfs_step (g : Graph) (types : Option (List String)) (depth_limit max_nodes : ℕ)
    (st : BfsState) (current : String × ℕ) (rest : List (String × ℕ)) : BfsState :=
  if depth_limit < current.2 then
    { st with queue := rest }
  else
    let neighbors := client_type_filter types (get_neighbors g current.1 (pushdown_type types) none)
    let nodes' := st.nodes ++ [⟨current.1, current.2, neighbors⟩]
    let total' := st.total_relationships + neighbors.length
    let depth' := max st.max_depth_reached current.2
    if current.2 < depth_limit then
      let vq := enqueue_neighbors current.1 (current.2 + 1) nodes'.length max_nodes
        neighbors st.visited rest
      { queue := vq.2, visited := vq.1, nodes := nodes',
        total_relationships := total', max_depth_reached := depth' }
    else
      { st with
        queue := rest,
        nodes := nodes',
        total_relationships := total',
        max_depth_reached := depth' }

/-- The BFS while-loop (`while queue and len(nodes) < max_nodes`), with an
explicit fuel; `none` means the fuel ran out before the loop condition
failed (shown below to be impossible for the fuel `traverse_fuel`). -/
def bfs_loop (g : Graph) (types : Option (List String)) (depth_limit max_nodes : ℕ) :
    ℕ → BfsState → Option BfsState
  | fuel, st =>
    match st.queue with
    | [] => some st
    | c :: rest =>
      if max_nodes ≤ st.nodes.length then some st
      else
        match fuel with
        | 0 => none
        | fuel + 1 =>
          bfs_loop g types depth_limit max_nodes fuel (bfs_step g types depth_limit max_nodes st c rest)

/-- Every node id that can ever enter the visited set: the start node and
the endpoints of the stored edges. -/
def all_node_ids (g : Graph) (start : String) : List String :=
  start :: g.foldr (fun r acc => r.source_id :: r.target_id :: acc) []

/-- Fuel that dominates the loop measure (proved sufficient below). -/
def traverse_fuel (g : Graph) (start : String) : ℕ :=
  1 + 2 * (all_node_ids g start).length

/-- The initial BFS state: queue `[(start, 0)]`, visited `{start}`. -/
def init_bfs_state (start : String) : BfsState :=
  { queue := [(start, 0)], visited := [start], nodes := [],
    total_relationships := 0, max_depth_reached := 0 }

/-- Number of candidate node ids not yet in the visited set (the
termination measure decreases when a new node is enqueued). -/
def not_visited_count (g : Graph) (start : String) (visited : List String) : ℕ :=
  ((all_node_ids g start).dedup.filter (fun a => ¬ visited.contains a)).length

/-- The loop measure: pending queue length plus twice the unvisited
candidate count.  Each iteration strictly decreases it. -/
def bfs_measure (g : Graph) (start : String) (st : BfsState) : ℕ :=
  st.queue.length + 2 * not_visited_count g start st.visited

/-- The loop invariant: recorded node ids and queued ids are pairwise
distinct and all in the visited set; queued and recorded depths respect the
depth limit; at most `max_nodes` nodes are recorded. -/
def bfs_inv (depth_limit max_nodes : ℕ) (st : BfsState) : Prop :=
  (st.nodes.map TravNode.node_id ++ st.queue.map Prod.fst).Nodup
  ∧ (∀ i ∈ st.nodes.map TravNode.node_id ++ st.queue.map Prod.fst,
      st.visited.contains i = true)
  ∧ (∀ p ∈ st.queue, p.2 ≤ depth_limit)
  ∧ (∀ n ∈ st.nodes, n.depth ≤ depth_limit)
  ∧ st.nodes.length ≤ max_nodes

/-- `GraphEngine.traverse`'s returned structure. -/
structure TraverseResult where
  start_node_id : String
  nodes : List TravNode
  total_relationships : ℕ
  max_depth_reached : ℕ
deriving DecidableEq

/-- `GraphEngine.traverse(start_node_id, max_depth, relationship_types,
max_nodes)`; `none` would mean the while-loop failed to terminate within
`traverse_fuel` (refuted below). -/
def traverse (g : Graph) (start_node_id : String) (max_depth : Option ℕ)
    (relationship_types : Option (List String)) (max_nodes : ℕ) :
    Option TraverseResult :=
  let depth_limit := effective_depth_limit max_depth
  (bfs_loop g relationship_types depth_limit max_nodes (traverse_fuel g start_node_id)
      (init_bfs_state start_node_id)).map fun st =>
    { start_node_id := start_node_id, nodes := st.nodes,
      total_relationships := st.total_relationships,
      max_depth_reached := st.max_depth_reached }

/-! ## Helper lemmas -/

lemma ratTrunc_intCast (n : ℤ) : ratTrunc ((n : ℚ)) = n := by
  rw [ratTrunc]
  split
  · exact Int.ceil_intCast n
  · exact Int.floor_intCast n

lemma norm_workspace_some {w : String} (hw : w ≠ "") (extra : MetaDict) :
    norm_workspace (some w) extra = w := by
  simp [norm_workspace, hw]

lemma dictGet_update_of_none {extra : MetaDict} {k : String} (base : MetaDict)
    (h : dictGet extra k = none) : dictGet (dictUpdate base extra) k = dictGet base k := by
  induction extra with
  | nil => rfl
  | cons a rest ih =>
    obtain ⟨a1, a2⟩ := a
    rw [dictGet, List.lookup] at h
    rw [dictGet, dictUpdate, List.cons_append, List.lookup]
    cases hka : (k == a1) with
    | true =>
      rw [hka] at h
      exact absurd h (by simp)
    | false =>
      rw [hka] at h
      exact ih h

lemma mark_superseded_id (latest_id newId nowIso : String) (x : Entry) :
    (mark_superseded latest_id newId nowIso x).id = x.id := by
  rw [mark_superseded]
  split <;> rfl

lemma mark_superseded_marks {x : Entry} {latest_id : String} (h : x.id = latest_id)
    (newId nowIso : String) :
    dictGet (mark_superseded latest_id newId nowIso x).meta "status"
        = some (.str "superseded")
    ∧ dictGet (mark_superseded latest_id newId nowIso x).meta "superseded_by"
        = some (.str newId)
    ∧ is_active_meta (mark_superseded latest_id newId nowIso x).meta = false := by
  rw [mark_superseded, if_pos h]
  exact ⟨rfl, rfl, rfl⟩

lemma mark_superseded_other {x : Entry} {latest_id : String} (h : ¬ x.id = latest_id)
    (newId nowIso : String) : mark_superseded latest_id newId nowIso x = x := by
  rw [mark_superseded, if_neg h]

lemma find?_append_of_none {p : Entry → Bool} {l₁ : List Entry} (l₂ : List Entry)
    (h : ∀ x ∈ l₁, p x = false) :
    (l₁ ++ l₂).find? p = l₂.find? p := by
  induction l₁ with
  | nil => rfl
  | cons a l ih =>
    rw [List.cons_append, List.find?_cons, h a (List.mem_cons_self a l)]
    exact ih fun x hx => h x (List.mem_cons_of_mem a hx)

lemma find?_map_marked {s : Store} {E : Entry} (newId nowIso : String)
    (hE : E ∈ s) (hnodup : (s.map Entry.id).Nodup) :
    (s.map (mark_superseded E.id newId nowIso)).find? (fun x => x.id = E.id)
      = some (mark_superseded E.id newId nowIso E) := by
  induction s with
  | nil => exact absurd hE (by simp)
  | cons a l ih =>
    rw [List.map_cons, List.find?_cons]
    by_cases hid : a.id = E.id
    · have ha : a = E := List.inj_on_of_nodup_map hnodup (List.mem_cons_self a l) hE hid
      subst ha
      simp [mark_superseded_id]
    · have hpa : (decide ((mark_superseded E.id newId nowIso a).id = E.id)) = false := by
        simp [mark_superseded_id, hid]
      rw [hpa]
      have hE' : E ∈ l := by
        rcases List.mem_cons.mp hE with rfl | hE'
        · exact absurd rfl hid
        · exact hE'
      exact ih hE' (by
        rw [List.map_cons] at hnodup
        exact hnodup.of_cons)

lemma find_latest_of_filter_nil {s : Store} {key : String}
    (h : s.filter (active_with_key key) = []) :
    find_latest_learning_version s key = none := by
  rw [find_latest_learning_version]
  have hcomm : (fun a => is_active_meta a.meta && has_learning_key key a) = active_with_key key := by
    funext a
    rw [active_with_key, Bool.and_comm]
  have hf : (s.filter (has_learning_key key)).filter (fun e => is_active_meta e.meta) = [] := by
    rw [List.filter_filter, hcomm]
    exact h
  rw [hf]

lemma find_latest_of_filter_singleton {s : Store} {key : String} {E : Entry}
    (h : s.filter (active_with_key key) = [E]) :
    find_latest_learning_version s key = some E := by
  rw [find_latest_learning_version]
  have hcomm : (fun a => is_active_meta a.meta && has_learning_key key a) = active_with_key key := by
    funext a
    rw [active_with_key, Bool.and_comm]
  have hf : (s.filter (has_learning_key key)).filter (fun e => is_active_meta e.meta) = [E] := by
    rw [List.filter_filter, hcomm]
    exact h
  rw [hf]
  rfl

lemma filter_marked_nil {s : Store} {key : String} {E : Entry} (newId nowIso : String)
    (hfilter : s.filter (active_with_key key) = [E]) :
    (s.map (mark_superseded E.id newId nowIso)).filter (active_with_key key) = [] := by
  rw [List.filter_eq_nil_iff]
  intro x hx
  rcases List.mem_map.mp hx with ⟨y, hy, rfl⟩
  by_cases hid : y.id = E.id
  · have hact := (mark_superseded_marks hid newId nowIso).2.2
    simp [active_with_key, hact]
  · rw [mark_superseded_other hid]
    intro hactive
    have hmem : y ∈ s.filter (active_with_key key) :=
      List.mem_filter.mpr ⟨hy, hactive⟩
    rw [hfilter, List.mem_singleton] at hmem
    exact hid (by rw [hmem])

lemma base_meta_status (mn ag cat ws key : String) (v : Int) (now : String) (c : Bool)
    (p : Option String) (ctr : List ContradictionRec) :
    dictGet (add_learning_base_meta mn ag cat ws key v now c p ctr) "status"
      = some (.str "active") := rfl

lemma base_meta_key (mn ag cat ws key : String) (v : Int) (now : String) (c : Bool)
    (p : Option String) (ctr : List ContradictionRec) :
    dictGet (add_learning_base_meta mn ag cat ws key v now c p ctr) "learning_key"
      = some (.str key) := rfl

lemma base_meta_version (mn ag cat ws key : String) (v : Int) (now : String) (c : Bool)
    (p : Option String) (ctr : List ContradictionRec) :
    dictGet (add_learning_base_meta mn ag cat ws key v now c p ctr) "version"
      = some (.num (v : ℚ)) := rfl

lemma base_meta_conflict (mn ag cat ws key : String) (v : Int) (now : String) (c : Bool)
    (p : Option String) (ctr : List ContradictionRec) :
    dictGet (add_learning_base_meta mn ag cat ws key v now c p ctr) "conflict_detected"
      = some (.bool c) := rfl

lemma base_meta_created (mn ag cat ws key : String) (v : Int) (now : String) (c : Bool)
    (p : Option String) (ctr : List ContradictionRec) :
    dictGet (add_learning_base_meta mn ag cat ws key v now c p ctr) "created_at"
      = some (.str now) := rfl

lemma add_learning_fst_none (s : Store) (text mn ag cat : String) (extra : MetaDict)
    (w : String) (newId now : String) (q : Except Unit (List Hit))
    (hw : w ≠ "") (htext : pyStrip text ≠ "")
    (hlat : find_latest_learning_version s (add_learning_key w mn cat) = none) :
    (add_learning s text mn ag cat extra (some w) newId now q).1
      = s ++ [⟨newId, text,
          dictUpdate (add_learning_base_meta mn ag cat w (add_learning_key w mn cat) 1 now
            false none (detect_contradictions s.length contradictionThreshold q text none))
            extra⟩] := by
  simp only [add_learning, if_neg htext, norm_workspace_some hw, hlat, Option.map_none']

lemma add_learning_fst_some (s : Store) (text mn ag cat : String) (extra : MetaDict)
    (w : String) (newId now : String) (q : Except Unit (List Hit)) (E : Entry)
    (hw : w ≠ "") (htext : pyStrip text ≠ "")
    (hlat : find_latest_learning_version s (add_learning_key w mn cat) = some E) :
    (add_learning s text mn ag cat extra (some w) newId now q).1
      = s.map (mark_superseded E.id newId now)
        ++ [⟨newId, text,
          dictUpdate (add_learning_base_meta mn ag cat w (add_learning_key w mn cat)
            (as_int (dictGet E.meta "version") 1 + 1) now
            (decide (pyStrip E.doc ≠ pyStrip text)) (some E.id)
            (detect_contradictions s.length contradictionThreshold q text (some E.id)))
            extra⟩] := by
  simp only [add_learning, if_neg htext, norm_workspace_some hw, hlat, Option.map_some']

lemma add_learning_snd (s : Store) (text mn ag cat : String) (extra : MetaDict)
    (ws : Option String) (newId now : String) (q : Except Unit (List Hit))
    (htext : pyStrip text ≠ "") :
    (add_learning s text mn ag cat extra ws newId now q).2 = newId := by
  rw [add_learning, if_neg htext]

lemma get_learning_metadata_append {s1 : Store} {e : Entry}
    (h : ∀ x ∈ s1, x.id ≠ e.id) :
    get_learning_metadata (s1 ++ [e]) e.id = e.meta := by
  rw [get_learning_metadata, find?_append_of_none]
  · simp [List.find?_cons]
  · intro x hx
    simp [h x hx]

lemma marked_ids (s : Store) (lid nid now : String) :
    (s.map (mark_superseded lid nid now)).map Entry.id = s.map Entry.id := by
  rw [List.map_map]
  exact List.map_congr_left fun x _ => mark_superseded_id lid nid now x

lemma find?_append_left {p : Entry → Bool} {l₁ : List Entry} {e : Entry} (l₂ : List Entry)
    (h : l₁.find? p = some e) : (l₁ ++ l₂).find? p = some e := by
  induction l₁ with
  | nil => simp at h
  | cons a l ih =>
    rw [List.cons_append, List.find?_cons]
    rw [List.find?_cons] at h
    cases hpa : p a with
    | true =>
      rw [hpa] at h
      exact h
    | false =>
      rw [hpa] at h
      exact ih h

lemma merged_entry_active (mn ag cat ws key : String) (v : Int) (now : String) (c : Bool)
    (p : Option String) (ctr : List ContradictionRec) (extra : MetaDict)
    (newId text : String)
    (hst : dictGet extra "status" = none) (hkey : dictGet extra "learning_key" = none) :
    active_with_key key (⟨newId, text,
      dictUpdate (add_learning_base_meta mn ag cat ws key v now c p ctr) extra⟩ : Entry)
      = true := by
  have h1 : dictGet (dictUpdate (add_learning_base_meta mn ag cat ws key v now c p ctr)
      extra) "learning_key" = some (.str key) := by
    rw [dictGet_update_of_none _ hkey, base_meta_key]
  have h2 : dictGet (dictUpdate (add_learning_base_meta mn ag cat ws key v now c p ctr)
      extra) "status" = some (.str "active") := by
    rw [dictGet_update_of_none _ hst, base_meta_status]
  simp [active_with_key, has_learning_key, is_active_meta, h1, h2]

lemma add_learning_step_none
    {s : Store} {text mn ag cat : String} {extra : MetaDict} {w newId now : String}
    {q : Except Unit (List Hit)}
    (hw : w ≠ "") (htext : pyStrip text ≠ "")
    (hst : dictGet extra "status" = none) (hver : dictGet extra "version" = none)
    (hkey : dictGet extra "learning_key" = none)
    (hfresh : ∀ x ∈ s, x.id ≠ newId)
    (hfil : s.filter (active_with_key (add_learning_key w mn cat)) = []) :
    ∃ N : Entry,
      (add_learning s text mn ag cat extra (some w) newId now q).1 = s ++ [N]
      ∧ N.id = newId
      ∧ ((add_learning s text mn ag cat extra (some w) newId now q).1).map Entry.id
          = s.map Entry.id ++ [newId]
      ∧ ((add_learning s text mn ag cat extra (some w) newId now q).1).filter
          (active_with_key (add_learning_key w mn cat)) = [N]
      ∧ dictGet N.meta "version" = some (.num ((1 : ℤ) : ℚ))
      ∧ assigned_version (add_learning s text mn ag cat extra (some w) newId now q).1 newId
          = 1 := by
  have hlat := find_latest_of_filter_nil hfil
  have hfst := add_learning_fst_none s text mn ag cat extra w newId now q hw htext hlat
  refine ⟨⟨newId, text,
    dictUpdate (add_learning_base_meta mn ag cat w (add_learning_key w mn cat) 1 now
      false none (detect_contradictions s.length contradictionThreshold q text none))
      extra⟩, hfst, rfl, ?_, ?_, ?_, ?_⟩
  · rw [hfst]
    simp
  · rw [hfst, List.filter_append, hfil]
    rw [List.filter_cons_of_pos (by
      exact merged_entry_active mn ag cat w (add_learning_key w mn cat) 1 now false none _
        extra newId text hst hkey)]
    rfl
  · show dictGet (dictUpdate _ extra) "version" = _
    rw [dictGet_update_of_none _ hver, base_meta_version]
  · rw [assigned_version, hfst, get_learning_metadata_append hfresh]
    show as_int (dictGet (dictUpdate _ extra) "version") 1 = 1
    rw [dictGet_update_of_none _ hver, base_meta_version, as_int, ratTrunc_intCast]

lemma add_learning_step_some
    {s : Store} {text mn ag cat : String} {extra : MetaDict} {w newId now : String}
    {q : Except Unit (List Hit)} {E : Entry} {v : ℤ}
    (hw : w ≠ "") (htext : pyStrip text ≠ "")
    (hst : dictGet extra "status" = none) (hver : dictGet extra "version" = none)
    (hkey : dictGet extra "learning_key" = none)
    (hfresh : ∀ x ∈ s, x.id ≠ newId)
    (hnodup : (s.map Entry.id).Nodup)
    (hfil : s.filter (active_with_key (add_learning_key w mn cat)) = [E])
    (hEver : dictGet E.meta "version" = some (.num (v : ℚ))) :
    ∃ N : Entry,
      (add_learning s text mn ag cat extra (some w) newId now q).1
          = s.map (mark_superseded E.id newId now) ++ [N]
      ∧ N.id = newId
      ∧ ((add_learning s text mn ag cat extra (some w) newId now q).1).map Entry.id
          = s.map Entry.id ++ [newId]
      ∧ ((add_learning s text mn ag cat extra (some w) newId now q).1).filter
          (active_with_key (add_learning_key w mn cat)) = [N]
      ∧ dictGet N.meta "version" = some (.num ((v + 1 : ℤ) : ℚ))
      ∧ assigned_version (add_learning s text mn ag cat extra (some w) newId now q).1 newId
          = v + 1
      ∧ (∀ F ∈ s, active_with_key (add_learning_key w mn cat) F = true →
          dictGet (get_learning_metadata
            (add_learning s text mn ag cat extra (some w) newId now q).1 F.id) "status"
              = some (.str "superseded")
          ∧ dictGet (get_learning_metadata
            (add_learning s text mn ag cat extra (some w) newId now q).1 F.id)
              "superseded_by" = some (.str newId)) := by
  have hlat := find_latest_of_filter_singleton hfil
  have hv : as_int (dictGet E.meta "version") 1 = v := by
    rw [hEver, as_int, ratTrunc_intCast]
  have hfst := add_learning_fst_some s text mn ag cat extra w newId now q E hw htext hlat
  rw [hv] at hfst
  have hfreshmap : ∀ x ∈ s.map (mark_superseded E.id newId now), x.id ≠ newId := by
    intro x hx
    rcases List.mem_map.mp hx with ⟨y, hy, rfl⟩
    rw [mark_superseded_id]
    exact hfresh y hy
  refine ⟨⟨newId, text,
    dictUpdate (add_learning_base_meta mn ag cat w (add_learning_key w mn cat) (v + 1) now
      (decide (pyStrip E.doc ≠ pyStrip text)) (some E.id)
      (detect_contradictions s.length contradictionThreshold q text (some E.id)))
      extra⟩, hfst, rfl, ?_, ?_, ?_, ?_, ?_⟩
  · rw [hfst, List.map_append, marked_ids]
    rfl
  · rw [hfst, List.filter_append, filter_marked_nil newId now hfil]
    rw [List.filter_cons_of_pos (by
      exact merged_entry_active mn ag cat w (add_learning_key w mn cat) (v + 1) now _ _ _
        extra newId text hst hkey)]
    rfl
  · show dictGet (dictUpdate _ extra) "version" = _
    rw [dictGet_update_of_none _ hver, base_meta_version]
  · rw [assigned_version, hfst, get_learning_metadata_append hfreshmap]
    show as_int (dictGet (dictUpdate _ extra) "version") 1 = v + 1
    rw [dictGet_update_of_none _ hver, base_meta_version, as_int, ratTrunc_intCast]
  · intro F hF hact
    have hFE : F = E := by
      have : F ∈ s.filter (active_with_key (add_learning_key w mn cat)) :=
        List.mem_filter.mpr ⟨hF, hact⟩
      rw [hfil, List.mem_singleton] at this
      exact this
    subst hFE
    have hfind : (s.map (mark_superseded F.id newId now)).find? (fun x => x.id = F.id)
        = some (mark_superseded F.id newId now F) :=
      find?_map_marked newId now hF hnodup
    have hgm : get_learning_metadata
        (add_learning s text mn ag cat extra (some w) newId now q).1 F.id
        = (mark_superseded F.id newId now F).meta := by
      rw [hfst, get_learning_metadata, find?_append_left _ hfind]
    rw [hgm]
    have hmarks := mark_superseded_marks (rfl : F.id = F.id) newId now
    exact ⟨hmarks.1, hmarks.2.1⟩

lemma run_add_learnings_master (mn ag cat w : String) (hw : w ≠ "") :
    ∀ (calls : List LearnCall) (s : Store) (v : ℕ),
      (∀ c ∈ calls, pyStrip c.text ≠ "") →
      (∀ c ∈ calls, dictGet c.extra "status" = none ∧ dictGet c.extra "version" = none
        ∧ dictGet c.extra "learning_key" = none) →
      (s.map Entry.id ++ calls.map LearnCall.newId).Nodup →
      ((v = 0 ∧ s.filter (active_with_key (add_learning_key w mn cat)) = [])
        ∨ ∃ E, s.filter (active_with_key (add_learning_key w mn cat)) = [E]
            ∧ dictGet E.meta "version" = some (.num ((v : ℤ) : ℚ))) →
      assigned_versions mn ag cat (some w) s calls
          = (List.range' (v + 1) calls.length).map Int.ofNat
      ∧ (∀ k, 1 ≤ k → k ≤ calls.length →
          ((run_add_learnings mn ag cat (some w) s (calls.take k)).filter
              (active_with_key (add_learning_key w mn cat))).map Entry.id
            = [(calls.getD (k-1) default).newId])
      ∧ (∀ k, 1 ≤ k → k ≤ calls.length →
          ∀ F ∈ run_add_learnings mn ag cat (some w) s (calls.take (k-1)),
            active_with_key (add_learning_key w mn cat) F = true →
            dictGet (get_learning_metadata
                (run_add_learnings mn ag cat (some w) s (calls.take k)) F.id) "status"
              = some (.str "superseded")
            ∧ dictGet (get_learning_metadata
                (run_add_learnings mn ag cat (some w) s (calls.take k)) F.id)
                "superseded_by" = some (.str (calls.getD (k-1) default).newId)) := by
  intro calls
  induction calls with
  | nil =>
    intro s v htexts hres hnodup hinv
    refine ⟨by simp [assigned_versions], ?_, ?_⟩
    · intro k hk1 hk2
      simp at hk2
      omega
    · intro k hk1 hk2
      simp at hk2
      omega
  | cons c cs ih =>
    intro s v htexts hres hnodup hinv
    have htc : pyStrip c.text ≠ "" := htexts c (List.mem_cons_self c cs)
    have hrc := hres c (List.mem_cons_self c cs)
    have hfresh : ∀ x ∈ s, x.id ≠ c.newId := by
      intro x hx heq
      have hmemL : c.newId ∈ s.map Entry.id := List.mem_map.mpr ⟨x, hx, heq⟩
      have hmemR : c.newId ∈ (c :: cs).map LearnCall.newId := by simp
      exact (List.nodup_append.mp hnodup).2.2 hmemL hmemR
    have hnodup_s : (s.map Entry.id).Nodup := (List.nodup_append.mp hnodup).1
    -- obtain the post-call facts, uniformly for the two invariant cases
    have hstep : ∃ N : Entry,
        (add_learning s c.text mn ag cat c.extra (some w) c.newId c.nowIso c.query).1.map
          Entry.id = s.map Entry.id ++ [c.newId]
        ∧ N.id = c.newId
        ∧ (add_learning s c.text mn ag cat c.extra (some w) c.newId c.nowIso c.query).1.filter
            (active_with_key (add_learning_key w mn cat)) = [N]
        ∧ dictGet N.meta "version" = some (.num (((v + 1 : ℕ) : ℤ) : ℚ))
        ∧ assigned_version
            (add_learning s c.text mn ag cat c.extra (some w) c.newId c.nowIso c.query).1
            c.newId = ((v + 1 : ℕ) : ℤ)
        ∧ (∀ F ∈ s, active_with_key (add_learning_key w mn cat) F = true →
            dictGet (get_learning_metadata
              (add_learning s c.text mn ag cat c.extra (some w) c.newId c.nowIso c.query).1
              F.id) "status" = some (.str "superseded")
            ∧ dictGet (get_learning_metadata
              (add_learning s c.text mn ag cat c.extra (some w) c.newId c.nowIso c.query).1
              F.id) "superseded_by" = some (.str c.newId)) := by
      rcases hinv with ⟨hv0, hfil⟩ | ⟨E, hfil, hEver⟩
      · obtain ⟨N, _, hNid, hids, hfilter', hNver, hassigned⟩ :=
          @add_learning_step_none s c.text mn ag cat c.extra w c.newId c.nowIso c.query
            hw htc hrc.1 hrc.2.1 hrc.2.2 hfresh hfil
        subst hv0
        refine ⟨N, hids, hNid, hfilter', by simpa using hNver, by simpa using hassigned, ?_⟩
        intro F hF hact
        have : F ∈ s.filter (active_with_key (add_learning_key w mn cat)) :=
          List.mem_filter.mpr ⟨hF, hact⟩
        rw [hfil] at this
        exact absurd this (by simp)
      · obtain ⟨N, _, hNid, hids, hfilter', hNver, hassigned, hmarks⟩ :=
          @add_learning_step_some s c.text mn ag cat c.extra w c.newId c.nowIso c.query
            E _ hw htc hrc.1 hrc.2.1 hrc.2.2 hfresh hnodup_s hfil hEver
        have hcast : (((v + 1 : ℕ)) : ℤ) = ((v : ℕ) : ℤ) + 1 := by push_cast; ring
        refine ⟨N, hids, hNid, hfilter', by rw [hcast]; exact hNver,
          by rw [hcast]; exact hassigned, hmarks⟩
    obtain ⟨N, hids, hNid, hfilter', hNver, hassigned, hmarks⟩ := hstep
    have hnodup' :
        ((add_learning s c.text mn ag cat c.extra (some w) c.newId c.nowIso c.query).1.map
          Entry.id ++ cs.map LearnCall.newId).Nodup := by
      rw [hids, List.append_assoc]
      simpa using hnodup
    have hinv' : ((v + 1 = 0 ∧
        (add_learning s c.text mn ag cat c.extra (some w) c.newId c.nowIso c.query).1.filter
          (active_with_key (add_learning_key w mn cat)) = [])
      ∨ ∃ E, (add_learning s c.text mn ag cat c.extra (some w) c.newId c.nowIso
            c.query).1.filter (active_with_key (add_learning_key w mn cat)) = [E]
          ∧ dictGet E.meta "version" = some (.num (((v + 1 : ℕ) : ℤ) : ℚ))) :=
      Or.inr ⟨N, hfilter', hNver⟩
    obtain ⟨ihA, ihB, ihC⟩ := ih
      (add_learning s c.text mn ag cat c.extra (some w) c.newId c.nowIso c.query).1 (v + 1)
      (fun x hx => htexts x (List.mem_cons_of_mem c hx))
      (fun x hx => hres x (List.mem_cons_of_mem c hx)) hnodup' hinv'
    refine ⟨?_, ?_, ?_⟩
    · show assigned_version _ c.newId :: assigned_versions mn ag cat (some w) _ cs = _
      rw [hassigned, ihA, List.length_cons, List.range'_succ, List.map_cons]
      rfl
    · intro k hk1 hk2
      match k, hk1 with
      | 1, _ =>
        have h1 : run_add_learnings mn ag cat (some w) s ((c :: cs).take 1)
            = (add_learning s c.text mn ag cat c.extra (some w) c.newId c.nowIso c.query).1 :=
          rfl
        rw [h1, hfilter']
        simp [hNid]
      | (n + 2), _ =>
        have hk2' : n + 1 ≤ cs.length := by simpa using hk2
        exact ihB (n + 1) (by omega) hk2'
    · intro k hk1 hk2 F hF hact
      match k, hk1 with
      | 1, _ =>
        exact hmarks F hF hact
      | (n + 2), _ =>
        have hk2' : n + 1 ≤ cs.length := by simpa using hk2
        exact ihC (n + 1) (by omega) hk2' F hF hact

lemma round4_le_one {q : ℚ} (h : q ≤ 1) : round4 q ≤ 1 := by
  rw [round4, round_eq, div_le_one (by norm_num : (0:ℚ) < 10000)]
  have hf : ⌊q * 10000 + 1/2⌋ < 10001 := by
    rw [Int.floor_lt]
    push_cast
    nlinarith
  exact_mod_cast Int.lt_add_one_iff.mp hf

lemma insertStable_mem {α : Type} (le : α → α → Bool) (x : α) (l : List α) (a : α) :
    a ∈ insertStable le x l ↔ a = x ∨ a ∈ l := by
  induction l with
  | nil => simp [insertStable]
  | cons y ys ih =>
    by_cases h : le x y
    · simp [insertStable, h]
    · simp [insertStable, h, ih]
      tauto

lemma sortStable_mem {α : Type} (le : α → α → Bool) (l : List α) (a : α) :
    a ∈ sortStable le l ↔ a ∈ l := by
  induction l with
  | nil => simp [sortStable]
  | cons x xs ih => simp [sortStable, insertStable_mem, ih]

lemma insertStable_pairwise {α : Type} {le : α → α → Bool}
    (total : ∀ a b, le a b = true ∨ le b a = true)
    (trans : ∀ a b c, le a b = true → le b c = true → le a c = true)
    {l : List α} (hl : l.Pairwise (fun a b => le a b = true)) (x : α) :
    (insertStable le x l).Pairwise (fun a b => le a b = true) := by
  induction l with
  | nil => simp [insertStable]
  | cons y ys ih =>
    rcases List.pairwise_cons.mp hl with ⟨hy, hys⟩
    by_cases h : le x y
    · rw [insertStable, if_pos h]
      refine List.pairwise_cons.mpr ⟨?_, hl⟩
      intro b hb
      rcases List.mem_cons.mp hb with rfl | hb
      · exact h
      · exact trans x y b h (hy b hb)
    · rw [insertStable, if_neg h]
      refine List.pairwise_cons.mpr ⟨?_, ih hys⟩
      intro b hb
      rw [insertStable_mem] at hb
      rcases hb with rfl | hb
      · rcases total y b with hyb | hby
        · exact hyb
        · exact absurd hby (by simpa using h)
      · exact hy b hb

lemma sortStable_pairwise {α : Type} {le : α → α → Bool}
    (total : ∀ a b, le a b = true ∨ le b a = true)
    (trans : ∀ a b c, le a b = true → le b c = true → le a c = true)
    (l : List α) :
    (sortStable le l).Pairwise (fun a b => le a b = true) := by
  induction l with
  | nil => simp [sortStable]
  | cons x xs ih => exact insertStable_pairwise total trans ih x

lemma mem_foldl_dedup {base l : List RelEdge} {r : RelEdge}
    (h : r ∈ l.foldl
      (fun acc x => if acc.any (fun y => y.id = x.id) then acc else acc ++ [x]) base) :
    r ∈ base ∨ r ∈ l := by
  induction l generalizing base with
  | nil => exact Or.inl h
  | cons a t ih =>
    rw [List.foldl_cons] at h
    rcases ih h with hb | ht
    · by_cases hc : base.any (fun y => y.id = a.id)
      · rw [if_pos hc] at hb
        exact Or.inl hb
      · rw [if_neg hc] at hb
        rcases List.mem_append.mp hb with h1 | h2
        · exact Or.inl h1
        · exact Or.inr (by rw [List.mem_singleton.mp h2]; exact List.mem_cons_self a t)
    · exact Or.inr (List.mem_cons_of_mem a ht)

lemma get_neighbors_subset {g : Graph} {node_id : String} {t : Option String}
    {m : Option ℕ} {r : RelEdge} (h : r ∈ get_neighbors g node_id t m) : r ∈ g := by
  simp only [get_neighbors] at h
  have h1 := List.mem_of_mem_take h
  rcases mem_foldl_dedup h1 with hb | ht
  · exact List.mem_of_mem_filter hb
  · exact List.mem_of_mem_filter ht

lemma client_type_filter_subset {types : Option (List String)} {rels : List RelEdge}
    {r : RelEdge} (h : r ∈ client_type_filter types rels) : r ∈ rels := by
  rcases types with _ | ts
  · exact h
  · rw [client_type_filter] at h
    by_cases hl : 1 < ts.length
    · rw [if_pos hl] at h
      exact List.mem_of_mem_filter h
    · rw [if_neg hl] at h
      exact h

lemma mem_endpoints_foldr {g : Graph} {r : RelEdge} (h : r ∈ g) :
    r.source_id ∈ g.foldr (fun x acc => x.source_id :: x.target_id :: acc) []
    ∧ r.target_id ∈ g.foldr (fun x acc => x.source_id :: x.target_id :: acc) [] := by
  induction g with
  | nil => exact absurd h (by simp)
  | cons a t ih =>
    rw [List.foldr_cons]
    rcases List.mem_cons.mp h with rfl | ht
    · exact ⟨List.mem_cons_self _ _, List.mem_cons_of_mem _ (List.mem_cons_self _ _)⟩
    · have := ih ht
      exact ⟨List.mem_cons_of_mem _ (List.mem_cons_of_mem _ this.1),
        List.mem_cons_of_mem _ (List.mem_cons_of_mem _ this.2)⟩

lemma neighbor_id_mem_all {g : Graph} {r : RelEdge} (start cur : String) (h : r ∈ g) :
    (if r.source_id = cur then r.target_id else r.source_id) ∈ all_node_ids g start := by
  have he := mem_endpoints_foldr h
  by_cases hs : r.source_id = cur
  · rw [if_pos hs]
    exact List.mem_cons_of_mem _ he.2
  · rw [if_neg hs]
    exact List.mem_cons_of_mem _ he.1

lemma length_filter_mono {α : Type} {p q : α → Bool} (l : List α)
    (h : ∀ a ∈ l, p a = true → q a = true) :
    (l.filter p).length ≤ (l.filter q).length := by
  induction l with
  | nil => simp
  | cons a t ih =>
    have iht := ih fun x hx hp => h x (List.mem_cons_of_mem a hx) hp
    cases hpa : p a with
    | false =>
      cases hqa : q a with
      | false => simpa [List.filter_cons, hpa, hqa] using iht
      | true =>
        simp [List.filter_cons, hpa, hqa]
        omega
    | true =>
      have hqa := h a (List.mem_cons_self a t) hpa
      simp [List.filter_cons, hpa, hqa]
      omega

lemma length_filter_strict {α : Type} {p q : α → Bool} (l : List α) (x : α) (hx : x ∈ l)
    (hmono : ∀ a ∈ l, p a = true → q a = true) (hpx : p x = false) (hqx : q x = true) :
    (l.filter p).length < (l.filter q).length := by
  induction l with
  | nil => exact absurd hx (by simp)
  | cons a t ih =>
    rcases List.mem_cons.mp hx with rfl | hxt
    · have := length_filter_mono t fun y hy hp => hmono y (List.mem_cons_of_mem x hy) hp
      simp [List.filter_cons, hpx, hqx]
      omega
    · have iht := ih hxt fun y hy hp => hmono y (List.mem_cons_of_mem a hy) hp
      cases hpa : p a with
      | false =>
        cases hqa : q a with
        | false => simpa [List.filter_cons, hpa, hqa] using iht
        | true =>
          simp [List.filter_cons, hpa, hqa]
          omega
      | true =>
        have hqa := hmono a (List.mem_cons_self a t) hpa
        simp [List.filter_cons, hpa, hqa]
        omega

lemma not_visited_count_cons_le (g : Graph) (start : String) (visited : List String)
    (x : String) :
    not_visited_count g start (x :: visited) ≤ not_visited_count g start visited := by
  apply length_filter_mono
  intro a _ hp
  simp only [decide_eq_true_eq, List.contains_cons, Bool.or_eq_true, not_or] at hp ⊢
  exact hp.2

lemma not_visited_count_cons_lt (g : Graph) (start : String) (visited : List String)
    {x : String} (hx : x ∈ all_node_ids g start) (hnv : visited.contains x = false) :
    not_visited_count g start (x :: visited) < not_visited_count g start visited := by
  apply length_filter_strict _ x (List.mem_dedup.mpr hx)
  · intro a _ hp
    simp only [decide_eq_true_eq, List.contains_cons, Bool.or_eq_true, not_or] at hp ⊢
    exact hp.2
  · simp
  · simp only [decide_eq_true_eq]
    intro hmem
    rw [hnv] at hmem
    exact absurd hmem (by decide)

lemma enqueue_nil (cur : String) (nd nl mn : ℕ) (visited : List String)
    (queue : List (String × ℕ)) :
    enqueue_neighbors cur nd nl mn [] visited queue = (visited, queue) := rfl

lemma enqueue_cons (cur : String) (nd nl mn : ℕ) (a : RelEdge) (t : List RelEdge)
    (visited : List String) (queue : List (String × ℕ)) :
    enqueue_neighbors cur nd nl mn (a :: t) visited queue =
    (if ¬ visited.contains (if a.source_id = cur then a.target_id else a.source_id) = true
        ∧ nl + queue.length < mn then
      enqueue_neighbors cur nd nl mn t
        ((if a.source_id = cur then a.target_id else a.source_id) :: visited)
        (queue ++ [((if a.source_id = cur then a.target_id else a.source_id), nd)])
    else enqueue_neighbors cur nd nl mn t visited queue) := by
  simp only [enqueue_neighbors, List.foldl_cons]
  by_cases hc : ¬ visited.contains
      (if a.source_id = cur then a.target_id else a.source_id) = true
      ∧ nl + queue.length < mn
  · rw [if_pos hc, if_pos hc]
  · rw [if_neg hc, if_neg hc]

lemma enqueue_measure (g : Graph) (start cur : String) (nd nl mn : ℕ)
    (neighbors : List RelEdge) :
    ∀ (visited : List String) (queue : List (String × ℕ)),
    (∀ r ∈ neighbors, r ∈ g) →
    (enqueue_neighbors cur nd nl mn neighbors visited queue).2.length
      + 2 * not_visited_count g start (enqueue_neighbors cur nd nl mn neighbors visited queue).1
    ≤ queue.length + 2 * not_visited_count g start visited := by
  induction neighbors with
  | nil =>
    intro visited queue _
    rw [enqueue_nil]
  | cons a t ih =>
    intro visited queue hsub
    rw [enqueue_cons]
    by_cases hc : ¬ visited.contains
        (if a.source_id = cur then a.target_id else a.source_id) = true
        ∧ nl + queue.length < mn
    · rw [if_pos hc]
      have hnv : visited.contains
          (if a.source_id = cur then a.target_id else a.source_id) = false := by
        cases hcb : visited.contains (if a.source_id = cur then a.target_id else a.source_id)
        · rfl
        · exact absurd hcb hc.1
      have hmem := neighbor_id_mem_all start cur (hsub a (List.mem_cons_self a t))
      have hlt := not_visited_count_cons_lt g start visited hmem hnv
      have h1 := ih ((if a.source_id = cur then a.target_id else a.source_id) :: visited)
        (queue ++ [((if a.source_id = cur then a.target_id else a.source_id), nd)])
        (fun r hr => hsub r (List.mem_cons_of_mem a hr))
      have h2 : (queue ++ [((if a.source_id = cur then a.target_id else a.source_id), nd)]).length
          = queue.length + 1 := by simp
      omega
    · rw [if_neg hc]
      exact ih visited queue fun r hr => hsub r (List.mem_cons_of_mem a hr)

lemma neighbors_subset (g : Graph) (types : Option (List String)) (cur : String) :
    ∀ r ∈ client_type_filter types (get_neighbors g cur (pushdown_type types) none), r ∈ g :=
  fun _ hr => get_neighbors_subset (client_type_filter_subset hr)

lemma bfs_step_measure (g : Graph) (start : String) (types : Option (List String))
    (dl mn : ℕ) (st : BfsState) (c : String × ℕ) (rest : List (String × ℕ))
    (hq : st.queue = c :: rest) :
    bfs_measure g start (bfs_step g types dl mn st c rest) < bfs_measure g start st := by
  rw [bfs_measure, bfs_measure, hq, bfs_step]
  by_cases h1 : dl < c.2
  · rw [if_pos h1]
    simp only [List.length_cons]
    omega
  · rw [if_neg h1]
    simp only []
    by_cases h2 : c.2 < dl
    · rw [if_pos h2]
      refine Nat.lt_of_le_of_lt (enqueue_measure g start c.1 (c.2 + 1) _ mn _ st.visited rest
        (neighbors_subset g types c.1)) ?_
      simp only [List.length_cons]
      omega
    · rw [if_neg h2]
      simp only [List.length_cons]
      omega

lemma bfs_loop_eq (g : Graph) (types : Option (List String)) (dl mn fuel : ℕ)
    (st : BfsState) :
    bfs_loop g types dl mn fuel st =
    match st.queue with
    | [] => some st
    | c :: rest =>
      if mn ≤ st.nodes.length then some st
      else match fuel with
        | 0 => none
        | fuel + 1 =>
          bfs_loop g types dl mn fuel (bfs_step g types dl mn st c rest) := by
  rw [bfs_loop]

lemma bfs_loop_some (g : Graph) (start : String) (types : Option (List String))
    (dl mn : ℕ) :
    ∀ (fuel : ℕ) (st : BfsState), bfs_measure g start st ≤ fuel →
      (bfs_loop g types dl mn fuel st).isSome = true := by
  intro fuel
  induction fuel with
  | zero =>
    intro st hm
    rw [bfs_loop_eq]
    rcases hq : st.queue with _ | ⟨c, rest⟩
    · rfl
    · simp only []
      by_cases hg : mn ≤ st.nodes.length
      · rw [if_pos hg]
        rfl
      · exfalso
        rw [bfs_measure, hq] at hm
        simp only [List.length_cons] at hm
        omega
  | succ n ih =>
    intro st hm
    rw [bfs_loop_eq]
    rcases hq : st.queue with _ | ⟨c, rest⟩
    · rfl
    · simp only []
      by_cases hg : mn ≤ st.nodes.length
      · rw [if_pos hg]
        rfl
      · rw [if_neg hg]
        apply ih
        have := bfs_step_measure g start types dl mn st c rest hq
        omega

lemma enqueue_inv (cur : String) (nd nl mn : ℕ) (neighbors : List RelEdge)
    (L : List String) :
    ∀ (visited : List String) (queue : List (String × ℕ)),
    (L ++ queue.map Prod.fst).Nodup →
    (∀ i ∈ L ++ queue.map Prod.fst, visited.contains i = true) →
    (L ++ (enqueue_neighbors cur nd nl mn neighbors visited queue).2.map Prod.fst).Nodup
    ∧ (∀ i ∈ L ++ (enqueue_neighbors cur nd nl mn neighbors visited queue).2.map Prod.fst,
        (enqueue_neighbors cur nd nl mn neighbors visited queue).1.contains i = true)
    ∧ (∀ p ∈ (enqueue_neighbors cur nd nl mn neighbors visited queue).2,
        p ∈ queue ∨ p.2 = nd) := by
  induction neighbors with
  | nil =>
    intro visited queue h1 h2
    rw [enqueue_nil]
    exact ⟨h1, h2, fun p hp => Or.inl hp⟩
  | cons a t ih =>
    intro visited queue h1 h2
    rw [enqueue_cons]
    set nid := if a.source_id = cur then a.target_id else a.source_id with hnid
    by_cases hc : ¬ visited.contains nid = true ∧ nl + queue.length < mn
    · rw [if_pos hc]
      have hnv : visited.contains nid = false := by
        cases hcb : visited.contains nid
        · rfl
        · exact absurd hcb hc.1
      have hfresh : ∀ i ∈ L ++ queue.map Prod.fst, i ≠ nid := by
        intro i hi he
        have hct := h2 i hi
        rw [he, hnv] at hct
        exact absurd hct (by decide)
      have hA : (L ++ (queue ++ [(nid, nd)]).map Prod.fst).Nodup := by
        simp only [List.map_append, List.map_cons, List.map_nil]
        rw [← List.append_assoc]
        refine List.Nodup.append h1 (List.nodup_singleton nid) ?_
        intro x hx hx2
        rw [List.mem_singleton] at hx2
        exact absurd hx2 (hfresh x hx)
      have hB : ∀ i ∈ L ++ (queue ++ [(nid, nd)]).map Prod.fst,
          (nid :: visited).contains i = true := by
        intro i hi
        simp only [List.map_append, List.map_cons, List.map_nil] at hi
        rw [List.contains_cons]
        rcases List.mem_append.mp hi with hL | hqr
        · rw [h2 i (List.mem_append_left _ hL)]
          simp
        · rcases List.mem_append.mp hqr with hq2 | hs
          · rw [h2 i (List.mem_append_right _ hq2)]
            simp
          · rw [List.mem_singleton] at hs
            rw [hs]
            simp
      obtain ⟨g1, g2, g3⟩ := ih (nid :: visited) (queue ++ [(nid, nd)]) hA hB
      refine ⟨g1, g2, ?_⟩
      intro p hp
      rcases g3 p hp with hpq | hpd
      · rcases List.mem_append.mp hpq with hq2 | hs
        · exact Or.inl hq2
        · rw [List.mem_singleton] at hs
          exact Or.inr (by rw [hs])
      · exact Or.inr hpd
    · rw [if_neg hc]
      exact ih visited queue h1 h2

lemma bfs_step_inv (g : Graph) (types : Option (List String)) (dl mn : ℕ)
    (st : BfsState) (c : String × ℕ) (rest : List (String × ℕ))
    (hq : st.queue = c :: rest) (hinv : bfs_inv dl mn st)
    (hg : st.nodes.length < mn) :
    bfs_inv dl mn (bfs_step g types dl mn st c rest) := by
  obtain ⟨h1, h2, h3, h4, h5⟩ := hinv
  rw [hq] at h1 h2
  simp only [List.map_cons] at h1 h2
  rw [bfs_step]
  by_cases hd1 : dl < c.2
  · rw [if_pos hd1]
    refine ⟨?_, ?_, ?_, ?_, ?_⟩
    · exact (List.nodup_middle.mp h1).of_cons
    · intro i hi
      apply h2
      rcases List.mem_append.mp hi with hL | hR
      · exact List.mem_append_left _ hL
      · exact List.mem_append_right _ (List.mem_cons_of_mem _ hR)
    · intro p hp
      exact h3 p (by rw [hq]; exact List.mem_cons_of_mem _ hp)
    · exact h4
    · exact h5
  · rw [if_neg hd1]
    have hle : c.2 ≤ dl := Nat.le_of_not_lt hd1
    simp only []
    set nb := client_type_filter types (get_neighbors g c.1 (pushdown_type types) none)
      with hnb
    set nodes2 := st.nodes ++ [(⟨c.1, c.2, nb⟩ : TravNode)] with hnodes2
    have hsplit : nodes2.map TravNode.node_id ++ rest.map Prod.fst
        = st.nodes.map TravNode.node_id ++ c.1 :: rest.map Prod.fst := by
      rw [hnodes2]
      simp [List.map_append, List.append_assoc]
    have hA : (nodes2.map TravNode.node_id ++ rest.map Prod.fst).Nodup := by
      rw [hsplit]
      exact h1
    have hB : ∀ i ∈ nodes2.map TravNode.node_id ++ rest.map Prod.fst,
        st.visited.contains i = true := by
      rw [hsplit]
      exact h2
    have hlen2 : nodes2.length ≤ mn := by
      rw [hnodes2]
      simp only [List.length_append, List.length_cons, List.length_nil]
      omega
    have hdep2 : ∀ n ∈ nodes2, n.depth ≤ dl := by
      intro n hn
      rw [hnodes2] at hn
      rcases List.mem_append.mp hn with h | h
      · exact h4 n h
      · rw [List.mem_singleton] at h
        rw [h]
        exact hle
    by_cases hd2 : c.2 < dl
    · rw [if_pos hd2]
      obtain ⟨g1, g2, g3⟩ := enqueue_inv c.1 (c.2 + 1) nodes2.length mn nb
        (nodes2.map TravNode.node_id) st.visited rest hA hB
      refine ⟨g1, g2, ?_, hdep2, hlen2⟩
      intro p hp
      rcases g3 p hp with hpr | hpd
      · exact h3 p (by rw [hq]; exact List.mem_cons_of_mem _ hpr)
      · rw [hpd]
        exact hd2
    · rw [if_neg hd2]
      refine ⟨hA, hB, ?_, hdep2, hlen2⟩
      intro p hp
      exact h3 p (by rw [hq]; exact List.mem_cons_of_mem _ hp)

lemma bfs_loop_inv (g : Graph) (types : Option (List String)) (dl mn : ℕ) :
    ∀ (fuel : ℕ) (st : BfsState), bfs_inv dl mn st →
      ∀ res, bfs_loop g types dl mn fuel st = some res → bfs_inv dl mn res := by
  intro fuel
  induction fuel with
  | zero =>
    intro st hinv res hres
    rw [bfs_loop_eq] at hres
    rcases hq : st.queue with _ | ⟨c, rest⟩
    · simp only [hq] at hres
      injection hres with h
      exact h ▸ hinv
    · simp only [hq] at hres
      by_cases hgd : mn ≤ st.nodes.length
      · rw [if_pos hgd] at hres
        injection hres with h
        exact h ▸ hinv
      · rw [if_neg hgd] at hres
        exact Option.noConfusion hres
  | succ n ih =>
    intro st hinv res hres
    rw [bfs_loop_eq] at hres
    rcases hq : st.queue with _ | ⟨c, rest⟩
    · simp only [hq] at hres
      injection hres with h
      exact h ▸ hinv
    · simp only [hq] at hres
      by_cases hgd : mn ≤ st.nodes.length
      · rw [if_pos hgd] at hres
        injection hres with h
        exact h ▸ hinv
      · rw [if_neg hgd] at hres
        exact ih _ (bfs_step_inv g types dl mn st c rest hq hinv (Nat.lt_of_not_le hgd))
          res hres

lemma init_inv (dl mn : ℕ) (start : String) : bfs_inv dl mn (init_bfs_state start) := by
  refine ⟨?_, ?_, ?_, ?_, ?_⟩
  · simp [init_bfs_state]
  · intro i hi
    simp only [init_bfs_state, List.map_nil, List.map_cons, List.nil_append,
      List.mem_singleton] at hi
    rw [hi]
    simp [init_bfs_state]
  · intro p hp
    simp only [init_bfs_state, List.mem_singleton] at hp
    rw [hp]
    exact Nat.zero_le dl
  · intro n hn
    simp [init_bfs_state] at hn
  · simp [init_bfs_state]

lemma init_measure (g : Graph) (start : String) :
    bfs_measure g start (init_bfs_state start) ≤ traverse_fuel g start := by
  rw [bfs_measure, traverse_fuel, init_bfs_state]
  simp only [List.length_cons, List.length_nil]
  have h1 : not_visited_count g start [start] ≤ (all_node_ids g start).length := by
    rw [not_visited_count]
    calc (((all_node_ids g start).dedup).filter _).length
        ≤ (all_node_ids g start).dedup.length := List.length_filter_le _ _
      _ ≤ (all_node_ids g start).length := (List.dedup_sublist _).length_le
  omega

lemma get_expired_singleton (e : Entry) (q : ℚ) (ttl : ℤ) (now : ℚ)
    (hq : created_at_num e = some q) (h1 : ¬ ttl ≤ 0)
    (h2 : 0 < q ∧ q < now - (ttl : ℚ) * 86400) :
    get_expired_ids [e] ttl now = [e.id] := by
  rw [get_expired_ids, if_neg h1]
  show List.filterMap _ [e] = _
  simp only [List.filterMap_cons, List.filterMap_nil, hq]
  rw [if_pos h2]

/-! ## Claim theorems -/

/-- C10: `traverse` called with `max_depth = 0` behaves exactly like a call
with `max_depth` unspecified — the Python `max_depth or GRAPH_MAX_DEPTH`
maps `0` to the configured ceiling, so the effective depth limit is
`GRAPH_MAX_DEPTH` (and in particular a node at depth 1 is still visited,
shown on a one-edge graph). -/
theorem traverse_depth_zero_uses_configured_ceiling :
    (∀ (g : Graph) (start : String) (types : Option (List String)) (max_nodes : ℕ),
      traverse g start (some 0) types max_nodes = traverse g start none types max_nodes)
    ∧ effective_depth_limit (some 0) = GRAPH_MAX_DEPTH
    ∧ effective_depth_limit none = GRAPH_MAX_DEPTH
    ∧ (traverse [⟨"e1", "a", "b", "relates_to"⟩] "a" (some 0) none 50).map
        (fun res => res.nodes.map TravNode.depth) = some [0, 1] := by
  refine ⟨fun g start types max_nodes => rfl, rfl, rfl, by decide⟩

/-- C2 (refutation of the claimed priority term): `build_rank_score` reads
only importance/reliability/frequency/recency and the relevance input; the
`priority` tag has no effect on the score, so two metadata records that
differ only in priority (critical vs archived) receive identical scores,
contradicting the claimed `ResolvePriorityScore(priority) * w_prio` term
(and the module's own tests, which require critical > archived). -/
theorem build_rank_score_ignores_priority :
    (∀ (r : ℚ) (m : RankMeta) (p : Option String),
      build_rank_score r { m with priority := p } = build_rank_score r m)
    ∧ build_rank_score (7/10)
        ⟨some (1/2), some (1/2), some (1/2), some 0, some "critical"⟩
      = build_rank_score (7/10)
        ⟨some (1/2), some (1/2), some (1/2), some 0, some "archived"⟩
    ∧ resolve_priority_score "critical" ≠ resolve_priority_score "archived" := by
  refine ⟨fun r m p => rfl, rfl, ?_⟩
  have h1 : resolve_priority_score "critical" = 1 := rfl
  have h2 : resolve_priority_score "archived" = 2/10 := rfl
  rw [h1, h2]
  norm_num

/-- C7 (counterexample): a legal active skill with stored confidence
0.99999 (the API accepts any confidence in [0, 1]) is driven to exactly 1.0
by a single `record_usage` — `round(0.9999905, 4) = 1.0` — refuting
"asymptotically approaches but never reaches 1.0". -/
theorem record_usage_confidence_reaches_one :
    (record_usage ⟨"active", 0, 99999/100000⟩).2.confidence = 1 ∧
    (99999 : ℚ)/100000 < 1 := by
  constructor
  · have h : (record_usage ⟨"active", 0, 99999/100000⟩).2.confidence
        = round4 (min 1 (99999/100000 + (1 - 99999/100000) * (5/100))) := rfl
    rw [h]
    have hmin : min (1:ℚ) (99999/100000 + (1 - 99999/100000) * (5/100))
        = 1999981/2000000 := by
      rw [min_eq_right (by norm_num)]
      norm_num
    rw [hmin, round4, round_eq]
    have hfl : ⌊(1999981:ℚ)/2000000 * 10000 + 1/2⌋ = 10000 := by
      rw [Int.floor_eq_iff]
      constructor <;> norm_num
    rw [hfl]
    norm_num
  · norm_num

/-- C7 (amended): `record_usage` is a no-op returning `false` on a
non-active skill; on an active skill it increments the usage counter and
writes `round(min(1, c + (1-c)*0.05), 4)`, which never exceeds 1.0; and
from any stored 4-decimal confidence `k/10^4` with `k ≤ 9999` (every value
a previous `record_usage` can have written below 1.0) the update is
monotone non-decreasing and stays strictly below 1.0 — so repeated calls
from such a state never reach 1.0. -/
theorem record_usage_monotone_bounded :
    (∀ m : SkillMeta, m.status ≠ "active" → record_usage m = (false, m))
    ∧ (∀ m : SkillMeta, m.status = "active" → (record_usage m).2.confidence ≤ 1)
    ∧ (∀ (m : SkillMeta) (k : ℕ), m.status = "active" → m.confidence = (k : ℚ)/10000 →
        k ≤ 9999 →
        m.confidence ≤ (record_usage m).2.confidence
        ∧ (record_usage m).2.confidence ≤ 9999/10000
        ∧ (record_usage m).1 = true
        ∧ (record_usage m).2.usage_count = m.usage_count + 1) := by
  refine ⟨?_, ?_, ?_⟩
  · intro m h
    simp [record_usage, h]
  · intro m h
    simp only [record_usage, h, ne_eq, not_true_eq_false, if_false]
    exact round4_le_one (min_le_left 1 _)
  · intro m k hst hc hk
    have hrw : record_usage m =
        (true, { status := m.status, usage_count := m.usage_count + 1,
                 confidence := round4 (min 1 (m.confidence + (1 - m.confidence) * (5/100))) }) := by
      simp only [record_usage, hst, ne_eq, not_true_eq_false, if_false]
    rw [hrw, hc]
    have hx : (k:ℚ)/10000 + (1 - (k:ℚ)/10000) * (5/100) = (19*(k:ℚ) + 10000)/200000 := by
      ring
    have hle1 : (19*(k:ℚ) + 10000)/200000 ≤ 1 := by
      rw [div_le_one (by norm_num : (0:ℚ) < 200000)]
      have : (k:ℚ) ≤ 9999 := by exact_mod_cast hk
      linarith
    have hmin : min 1 ((k:ℚ)/10000 + (1 - (k:ℚ)/10000) * (5/100))
        = (19*(k:ℚ) + 10000)/200000 := by
      rw [hx, min_eq_right hle1]
    have harg : (19*(k:ℚ) + 10000)/200000 * 10000 + 1/2 = (19*(k:ℚ) + 10010)/20 := by
      ring
    have hlow : (k : ℤ) ≤ ⌊(19*(k:ℚ) + 10010)/20⌋ := by
      rw [Int.le_floor]
      rw [le_div_iff₀ (by norm_num : (0:ℚ) < 20)]
      push_cast
      linarith
    have hhigh : ⌊(19*(k:ℚ) + 10010)/20⌋ < 10000 := by
      rw [Int.floor_lt]
      rw [div_lt_iff₀ (by norm_num : (0:ℚ) < 20)]
      push_cast
      have : (k:ℚ) ≤ 9999 := by exact_mod_cast hk
      linarith
    have hhigh' : ⌊(19*(k:ℚ) + 10010)/20⌋ ≤ 9999 := by omega
    refine ⟨?_, ?_, rfl, rfl⟩
    · show (k:ℚ)/10000 ≤ round4 _
      rw [hmin, round4, round_eq, harg]
      rw [div_le_div_iff₀ (by norm_num) (by norm_num : (0:ℚ) < 10000)]
      have : ((k:ℤ):ℚ) ≤ (⌊(19*(k:ℚ) + 10010)/20⌋ : ℚ) := by exact_mod_cast hlow
      push_cast at this ⊢
      linarith
    · show round4 _ ≤ 9999/10000
      rw [hmin, round4, round_eq, harg]
      rw [div_le_div_iff₀ (by norm_num : (0:ℚ) < 10000) (by norm_num)]
      have : ((⌊(19*(k:ℚ) + 10010)/20⌋ : ℤ):ℚ) ≤ ((9999:ℤ):ℚ) := by exact_mod_cast hhigh'
      push_cast at this ⊢
      linarith

/-- Witness for `record_usage_monotone_bounded` at a concrete active skill
with confidence 0.5 (= 5000/10000). -/
theorem record_usage_monotone_bounded_witness :
    ((⟨"active", 0, (5000:ℕ)/10000⟩ : SkillMeta).status = "active"
      ∧ (5000:ℕ) ≤ 9999)
    ∧ ((⟨"active", 0, (5000:ℕ)/10000⟩ : SkillMeta).confidence
        ≤ (record_usage ⟨"active", 0, (5000:ℕ)/10000⟩).2.confidence
      ∧ (record_usage ⟨"active", 0, (5000:ℕ)/10000⟩).2.confidence ≤ 9999/10000
      ∧ (record_usage ⟨"active", 0, (5000:ℕ)/10000⟩).1 = true
      ∧ (record_usage ⟨"active", 0, (5000:ℕ)/10000⟩).2.usage_count = 0 + 1) :=
  ⟨⟨rfl, by norm_num⟩,
    record_usage_monotone_bounded.2.2 ⟨"active", 0, (5000:ℕ)/10000⟩ 5000 rfl rfl (by norm_num)⟩

/-- C4: a scanned candidate (active, not the excluded id) is recorded as a
contradiction iff its similarity `1 - distance` reaches the configured
threshold and its normalized text differs from the normalized new text; a
candidate with identical normalized text or below-threshold similarity is
never recorded (the iff, plus the converse characterization of every
recorded entry); a backend error yields the empty contradiction list; and
the error still does not abort the write — `add_learning` still returns the
new id and stores the new entry. -/
theorem detect_contradictions_iff :
    (∀ (count : ℕ) (threshold : ℚ) (hits : List Hit) (text : String)
        (exclude_id : Option String) (h : Hit),
      0 < count → 0 < threshold → (hits.map Hit.id).Nodup →
      h ∈ hits → hit_is_active h → exclude_id ≠ some h.id →
      (contradiction_of h ∈ detect_contradictions count threshold (.ok hits) text exclude_id
        ↔ (threshold ≤ 1 - h.dist ∧ pyLower (pyStrip h.doc) ≠ pyLower (pyStrip text))))
    ∧ (∀ (count : ℕ) (threshold : ℚ) (e : Unit) (text : String) (exclude_id : Option String) (c : ContradictionRec),
        detect_contradictions count threshold (.error e) text exclude_id = [] ∧
        c ∉ detect_contradictions count threshold (.error e) text exclude_id)
    ∧ (∀ (count : ℕ) (threshold : ℚ) (hits : List Hit) (text : String)
        (exclude_id : Option String) (c : ContradictionRec),
        c ∈ detect_contradictions count threshold (.ok hits) text exclude_id →
        ∃ h ∈ hits, c = contradiction_of h ∧ hit_is_active h ∧ exclude_id ≠ some h.id ∧
          threshold ≤ max 0 (1 - h.dist) ∧ pyLower (pyStrip h.doc) ≠ pyLower (pyStrip text))
    ∧ (∀ (store : Store) (text model_name agent_name category : String)
        (extraMeta : MetaDict) (workspace_id : Option String) (newId nowIso : String) (e : Unit),
        pyStrip text ≠ "" →
        (add_learning store text model_name agent_name category extraMeta workspace_id
            newId nowIso (.error e)).2 = newId
        ∧ newId ∈ (add_learning store text model_name agent_name category extraMeta workspace_id
            newId nowIso (.error e)).1.map Entry.id) := by
  refine ⟨?_, ?_, ?_, ?_⟩
  · intro count threshold hits text exclude_id h hcount hthr hnodup hmem hact hexc
    rw [detect_contradictions, if_neg (Nat.pos_iff_ne_zero.mp hcount)]
    simp only [List.mem_filterMap]
    constructor
    · rintro ⟨h', hmem', hf⟩
      by_cases hexc' : exclude_id = some h'.id
      · rw [if_pos hexc'] at hf
        exact absurd hf (by simp)
      rw [if_neg hexc'] at hf
      by_cases hact' : hit_is_active h'
      · rw [if_neg (by simpa using hact')] at hf
        by_cases hcond : max 0 (1 - h'.dist) ≥ threshold ∧
            pyLower (pyStrip h'.doc) ≠ pyLower (pyStrip text)
        · rw [if_pos hcond] at hf
          have hid : h'.id = h.id := by
            have := congrArg ContradictionRec.id (Option.some.inj hf)
            simpa [contradiction_of] using this
          have heq : h' = h := List.inj_on_of_nodup_map hnodup hmem' hmem hid
          subst heq
          refine ⟨?_, hcond.2⟩
          rcases le_max_iff.mp hcond.1 with h0 | h1
          · linarith
          · exact h1
        · rw [if_neg hcond] at hf
          exact absurd hf (by simp)
      · rw [if_pos (by simpa using hact')] at hf
        exact absurd hf (by simp)
    · rintro ⟨hsim, htext⟩
      refine ⟨h, hmem, ?_⟩
      rw [if_neg (by simpa using Ne.symm hexc ∘ Eq.symm)]
      rw [if_neg (by simpa using hact)]
      rw [if_pos ⟨le_max_of_le_right hsim, htext⟩]
      rfl
  · intro count threshold e text exclude_id c
    constructor
    · rw [detect_contradictions]
      split
      · rfl
      · rfl
    · rw [detect_contradictions]
      split
      · simp
      · simp
  · intro count threshold hits text exclude_id c hc
    rw [detect_contradictions] at hc
    by_cases hcount : count = 0
    · rw [if_pos hcount] at hc
      exact absurd hc (by simp)
    rw [if_neg hcount] at hc
    rcases List.mem_filterMap.mp hc with ⟨h, hmem, hf⟩
    by_cases hexc : exclude_id = some h.id
    · rw [if_pos hexc] at hf
      exact absurd hf (by simp)
    rw [if_neg hexc] at hf
    by_cases hact : hit_is_active h
    · rw [if_neg (by simpa using hact)] at hf
      by_cases hcond : max 0 (1 - h.dist) ≥ threshold ∧
          pyLower (pyStrip h.doc) ≠ pyLower (pyStrip text)
      · rw [if_pos hcond] at hf
        exact ⟨h, hmem, (Option.some.inj hf).symm, hact, hexc, hcond.1, hcond.2⟩
      · rw [if_neg hcond] at hf
        exact absurd hf (by simp)
    · rw [if_pos (by simpa using hact)] at hf
      exact absurd hf (by simp)
  · intro store text model_name agent_name category extraMeta workspace_id newId nowIso e htext
    rw [add_learning, if_neg htext]
    exact ⟨rfl, by simp⟩

/-- Witness for `detect_contradictions_iff`: one similar-but-different
active candidate at distance 0.1 against the default threshold 0.85. -/
theorem detect_contradictions_iff_witness :
    (0 < 1 ∧ (0:ℚ) < 85/100 ∧
      (([⟨"c1", "other text", 1/10, some "active", none, "k", ⟨none, none, none, none, none⟩⟩] :
        List Hit).map Hit.id).Nodup) ∧
    (contradiction_of ⟨"c1", "other text", 1/10, some "active", none, "k", ⟨none, none, none, none, none⟩⟩
        ∈ detect_contradictions 1 (85/100)
          (.ok [⟨"c1", "other text", 1/10, some "active", none, "k", ⟨none, none, none, none, none⟩⟩])
          "new text" none
      ↔ ((85:ℚ)/100 ≤ 1 - 1/10 ∧
          pyLower (pyStrip "other text") ≠ pyLower (pyStrip "new text"))) :=
  ⟨⟨by norm_num, by norm_num, by decide⟩,
    detect_contradictions_iff.1 1 (85/100)
      [⟨"c1", "other text", 1/10, some "active", none, "k", ⟨none, none, none, none, none⟩⟩]
      "new text" none
      ⟨"c1", "other text", 1/10, some "active", none, "k", ⟨none, none, none, none, none⟩⟩
      (by norm_num) (by norm_num) (by decide) (by simp) (by decide) (by simp)⟩

/-- C8: `resolve_priority_score` is a whitespace-trimmed, case-insensitive
lookup (two tags with the same normalized form resolve identically), every
unknown tag resolves to the score of `"normal"` (and the function is total,
so no error is possible), the table realizes the strict ordering
critical > pinned > reinforced > normal > archived, and the `min_priority`
filter of `search_facts` keeps exactly the results whose resolved priority
score reaches the resolved score of `min_priority`. -/
theorem resolve_priority_and_min_priority_filter :
    (∀ s t : String, pyLower (pyStrip s) = pyLower (pyStrip t) →
      resolve_priority_score s = resolve_priority_score t)
    ∧ (∀ s : String,
        ¬ (pyLower (pyStrip s) = "critical" ∨ pyLower (pyStrip s) = "pinned"
          ∨ pyLower (pyStrip s) = "reinforced" ∨ pyLower (pyStrip s) = "normal"
          ∨ pyLower (pyStrip s) = "archived") →
        resolve_priority_score s = resolve_priority_score "normal")
    ∧ (resolve_priority_score "archived" < resolve_priority_score "normal"
      ∧ resolve_priority_score "normal" < resolve_priority_score "reinforced"
      ∧ resolve_priority_score "reinforced" < resolve_priority_score "pinned"
      ∧ resolve_priority_score "pinned" < resolve_priority_score "critical")
    ∧ (∀ (facts_hits files_hits : List Hit) (include_files : Bool) (query : String)
        (mp : String) (x : SearchItem), mp ≠ "" →
        (x ∈ search_facts facts_hits files_hits include_files query (some mp)
          ↔ x ∈ search_facts facts_hits files_hits include_files query none
            ∧ resolve_priority_score (x.priority.getD "normal") ≥ resolve_priority_score mp)) := by
  refine ⟨?_, ?_, ?_, ?_⟩
  · intro s t h
    rw [resolve_priority_score, resolve_priority_score, h]
  · intro s hs
    push_neg at hs
    obtain ⟨h1, h2, h3, h4, h5⟩ := hs
    have hlk : MEMORY_PRIORITY_SCORES.lookup (pyLower (pyStrip s)) = none := by
      have e1 : (pyLower (pyStrip s) == "critical") = false := beq_eq_false_iff_ne.mpr h1
      have e2 : (pyLower (pyStrip s) == "pinned") = false := beq_eq_false_iff_ne.mpr h2
      have e3 : (pyLower (pyStrip s) == "reinforced") = false := beq_eq_false_iff_ne.mpr h3
      have e4 : (pyLower (pyStrip s) == "normal") = false := beq_eq_false_iff_ne.mpr h4
      have e5 : (pyLower (pyStrip s) == "archived") = false := beq_eq_false_iff_ne.mpr h5
      simp [MEMORY_PRIORITY_SCORES, List.lookup, e1, e2, e3, e4, e5]
    rw [resolve_priority_score, hlk]
    rfl
  · have ha : resolve_priority_score "archived" = 2/10 := rfl
    have hn : resolve_priority_score "normal" = 4/10 := rfl
    have hr : resolve_priority_score "reinforced" = 6/10 := rfl
    have hp : resolve_priority_score "pinned" = 8/10 := rfl
    have hc : resolve_priority_score "critical" = 1 := rfl
    rw [ha, hn, hr, hp, hc]
    norm_num
  · intro facts_hits files_hits include_files query mp x hmp
    simp only [search_facts, sort_by_score_desc, min_priority_filter, if_neg hmp,
      sortStable_mem]
    rw [List.mem_filter]
    simp only [decide_eq_true_eq]

/-- Witness for `resolve_priority_and_min_priority_filter`: the concrete
case-variant `" CRITICAL "` and the concrete unknown tag `"weird-tag"`. -/
theorem resolve_priority_and_min_priority_filter_witness :
    (pyLower (pyStrip " CRITICAL ") = pyLower (pyStrip "critical")
      ∧ resolve_priority_score " CRITICAL " = resolve_priority_score "critical")
    ∧ (¬ (pyLower (pyStrip "weird-tag") = "critical" ∨ pyLower (pyStrip "weird-tag") = "pinned"
          ∨ pyLower (pyStrip "weird-tag") = "reinforced" ∨ pyLower (pyStrip "weird-tag") = "normal"
          ∨ pyLower (pyStrip "weird-tag") = "archived")
      ∧ resolve_priority_score "weird-tag" = resolve_priority_score "normal") :=
  ⟨⟨by decide, resolve_priority_and_min_priority_filter.1 " CRITICAL " "critical" (by decide)⟩,
    ⟨by decide, resolve_priority_and_min_priority_filter.2.1 "weird-tag" (by decide)⟩⟩

/-- Helper: every result of `search_learnings` comes from an active hit. -/
lemma search_learnings_mem_src (hits : List Hit) (query : String)
    (min_priority : Option String) (x : SearchItem)
    (hx : x ∈ search_learnings hits query min_priority) :
    ∃ h ∈ hits, hit_is_active h ∧ x = hit_to_item "learnings" query h := by
  simp only [search_learnings, sort_by_score_desc, sortStable_mem] at hx
  have hx' : x ∈ hits.filterMap
      (fun h => if hit_is_active h then some (hit_to_item "learnings" query h) else none) := by
    rcases min_priority with _ | mp
    · exact hx
    · simp only [min_priority_filter] at hx
      by_cases hmp : mp = ""
      · rw [if_pos hmp] at hx
        exact hx
      · rw [if_neg hmp] at hx
        exact List.mem_of_mem_filter hx
  rcases List.mem_filterMap.mp hx' with ⟨h, hmem, hf⟩
  by_cases hact : hit_is_active h
  · rw [if_pos hact] at hf
    exact ⟨h, hmem, hact, (Option.some.inj hf).symm⟩
  · rw [if_neg hact] at hf
    exact absurd hf (by simp)

/-- C3 (refutation for `search_facts`): the facts/files search path applies
no lifecycle-status filter, so a soft-deleted file chunk
(`status = "deleted"`, as written by `soft_delete_file`) is returned by
`search_facts` with `include_files = true`. -/
theorem search_facts_returns_soft_deleted_chunk :
    ((search_facts []
        [⟨"f1", "chunk text", 0, some "deleted", none, "", ⟨none, none, none, none, none⟩⟩]
        true "q" none).map SearchItem.status) = [some "deleted"]
    ∧ (some "deleted" : Option String) ≠ some "active" := by
  exact ⟨rfl, by simp⟩

/-- C3 (amended): `search_learnings` drops every candidate whose status is
not active before filtering and sorting — each returned result carries an
active status and stems from an active hit — and the returned list is
sorted descending by composite score.  (`search_facts`, by contrast,
performs no status filtering; see its refutation.) -/
theorem search_learnings_active_only_sorted :
    ∀ (hits : List Hit) (query : String) (min_priority : Option String),
      (∀ x ∈ search_learnings hits query min_priority, x.status.getD "active" = "active")
      ∧ (search_learnings hits query min_priority).Pairwise (fun a b => b.score ≤ a.score)
      ∧ (∀ x ∈ search_learnings hits query min_priority,
          ∃ h ∈ hits, hit_is_active h ∧ x = hit_to_item "learnings" query h) := by
  intro hits query min_priority
  refine ⟨?_, ?_, search_learnings_mem_src hits query min_priority⟩
  · intro x hx
    rcases search_learnings_mem_src hits query min_priority x hx with ⟨h, _, hact, rfl⟩
    simpa [hit_to_item, hit_is_active] using hact
  · have hp : (search_learnings hits query min_priority).Pairwise
        (fun a b => decide (b.score ≤ a.score) = true) := by
      rw [search_learnings]
      apply sortStable_pairwise
      · intro a b
        rcases le_total b.score a.score with h | h
        · exact Or.inl (by simpa)
        · exact Or.inr (by simpa)
      · intro a b c hab hbc
        simp only [decide_eq_true_eq] at hab hbc ⊢
        linarith
    exact hp.imp (by simp)

/-- Witness for `search_learnings_active_only_sorted` at one concrete
active hit. -/
theorem search_learnings_active_only_sorted_witness :
    (hit_to_item "learnings" "q"
        ⟨"l1", "text", 0, some "active", none, "", ⟨none, none, none, none, none⟩⟩
      ∈ search_learnings
        [⟨"l1", "text", 0, some "active", none, "", ⟨none, none, none, none, none⟩⟩] "q" none)
    ∧ (hit_to_item "learnings" "q"
        ⟨"l1", "text", 0, some "active", none, "", ⟨none, none, none, none, none⟩⟩).status.getD
          "active" = "active" := by
  have hm : hit_to_item "learnings" "q"
      ⟨"l1", "text", 0, some "active", none, "", ⟨none, none, none, none, none⟩⟩
      ∈ search_learnings
        [⟨"l1", "text", 0, some "active", none, "", ⟨none, none, none, none, none⟩⟩] "q" none := by
    rw [show search_learnings
        [⟨"l1", "text", 0, some "active", none, "", ⟨none, none, none, none, none⟩⟩] "q" none
      = [hit_to_item "learnings" "q"
          ⟨"l1", "text", 0, some "active", none, "", ⟨none, none, none, none, none⟩⟩] from rfl]
    exact List.mem_singleton.mpr rfl
  exact ⟨hm,
    (search_learnings_active_only_sorted
      [⟨"l1", "text", 0, some "active", none, "", ⟨none, none, none, none, none⟩⟩] "q" none).1
      _ hm⟩

/-- C1 (refutation as stated): the caller-supplied metadata dict is merged
over the computed one (`learning_metadata.update(metadata)`), so a call
whose metadata carries a `status` key produces an entry that is not active:
after one `add_learning` on a fresh key there is no active entry at all,
not exactly one. -/
theorem add_learning_status_override_breaks_active_uniqueness :
    (add_learning [] "net fact" "m" "a" "general" [("status", .str "wip")] (some "w")
        "id1" "t0" (.ok [])).2 = "id1"
    ∧ ((add_learning [] "net fact" "m" "a" "general" [("status", .str "wip")] (some "w")
        "id1" "t0" (.ok [])).1.filter
          (active_with_key (add_learning_key "w" "m" "general"))).length = 0
    ∧ (add_learning [] "net fact" "m" "a" "general" [("status", .str "wip")] (some "w")
        "id1" "t0" (.ok [])).1.length = 1 := by
  refine ⟨rfl, ?_, rfl⟩
  rfl

/-- C1 (amended): for a sequence of `add_learning` calls sharing model,
agent, category and a non-empty workspace argument, with non-blank texts,
fresh UUIDs, and caller metadata that does not override the reserved
versioning keys (`status`, `version`, `learning_key`), starting from a
store with no active entry for the key: the reported version numbers are
exactly 1, 2, 3, …; after each call exactly one entry with the key is
active, namely the entry written by that call; and each call marks the
previously active entry `superseded` with `superseded_by` set to the new
id. -/
theorem add_learning_versioning_invariant :
    ∀ (mn ag cat w : String) (calls : List LearnCall) (s0 : Store),
      w ≠ "" →
      (∀ c ∈ calls, pyStrip c.text ≠ "") →
      (∀ c ∈ calls, dictGet c.extra "status" = none ∧ dictGet c.extra "version" = none
        ∧ dictGet c.extra "learning_key" = none) →
      (s0.map Entry.id ++ calls.map LearnCall.newId).Nodup →
      s0.filter (active_with_key (add_learning_key w mn cat)) = [] →
      assigned_versions mn ag cat (some w) s0 calls
          = (List.range' 1 calls.length).map Int.ofNat
      ∧ (∀ k, 1 ≤ k → k ≤ calls.length →
          ((run_add_learnings mn ag cat (some w) s0 (calls.take k)).filter
              (active_with_key (add_learning_key w mn cat))).map Entry.id
            = [(calls.getD (k-1) default).newId])
      ∧ (∀ k, 1 ≤ k → k ≤ calls.length →
          ∀ F ∈ run_add_learnings mn ag cat (some w) s0 (calls.take (k-1)),
            active_with_key (add_learning_key w mn cat) F = true →
            dictGet (get_learning_metadata
                (run_add_learnings mn ag cat (some w) s0 (calls.take k)) F.id) "status"
              = some (.str "superseded")
            ∧ dictGet (get_learning_metadata
                (run_add_learnings mn ag cat (some w) s0 (calls.take k)) F.id)
                "superseded_by" = some (.str (calls.getD (k-1) default).newId)) := by
  intro mn ag cat w calls s0 hw htexts hres hnodup hfil
  exact run_add_learnings_master mn ag cat w hw calls s0 0 htexts hres hnodup
    (Or.inl ⟨rfl, hfil⟩)

/-- Witness for `add_learning_versioning_invariant`: two concrete calls on
one key get versions 1 and 2, with one active entry after each call. -/
theorem add_learning_versioning_invariant_witness :
    (("w" : String) ≠ ""
      ∧ (∀ c ∈ [(⟨"Port is 80", [], "id1", "t1", .ok []⟩ : LearnCall),
          ⟨"Port is 8080", [], "id2", "t2", .ok []⟩], pyStrip c.text ≠ "")
      ∧ (∀ c ∈ [(⟨"Port is 80", [], "id1", "t1", .ok []⟩ : LearnCall),
          ⟨"Port is 8080", [], "id2", "t2", .ok []⟩],
          dictGet c.extra "status" = none ∧ dictGet c.extra "version" = none
            ∧ dictGet c.extra "learning_key" = none)
      ∧ (([] : Store).map Entry.id
          ++ [(⟨"Port is 80", [], "id1", "t1", .ok []⟩ : LearnCall),
              ⟨"Port is 8080", [], "id2", "t2", .ok []⟩].map LearnCall.newId).Nodup
      ∧ ([] : Store).filter (active_with_key (add_learning_key "w" "m" "general")) = [])
    ∧ assigned_versions "m" "a" "general" (some "w") []
        [⟨"Port is 80", [], "id1", "t1", .ok []⟩, ⟨"Port is 8080", [], "id2", "t2", .ok []⟩]
      = (List.range' 1 2).map Int.ofNat :=
  ⟨⟨by decide, by decide, by decide, by decide, rfl⟩,
    (add_learning_versioning_invariant "m" "a" "general" "w"
      [⟨"Port is 80", [], "id1", "t1", .ok []⟩, ⟨"Port is 8080", [], "id2", "t2", .ok []⟩]
      [] (by decide) (by decide) (by decide) (by decide) rfl).1⟩

/-- C5: when `add_learning` supersedes an existing active version `E` of
the key, the stored `conflict_detected` flag is `false` iff the new text
equals the old text after normalization (Python `.strip()`), and hence
`true` for any difference that survives normalization. -/
theorem add_learning_conflict_iff_normalized_diff :
    ∀ (s : Store) (text mn ag cat : String) (extra : MetaDict) (w : String)
      (newId now : String) (q : Except Unit (List Hit)) (E : Entry),
      w ≠ "" → pyStrip text ≠ "" →
      (∀ x ∈ s, x.id ≠ newId) →
      dictGet extra "conflict_detected" = none →
      find_latest_learning_version s (add_learning_key w mn cat) = some E →
      (dictGet (get_learning_metadata
          ((add_learning s text mn ag cat extra (some w) newId now q).1) newId)
          "conflict_detected" = some (.bool false)
        ↔ pyStrip E.doc = pyStrip text) := by
  intro s text mn ag cat extra w newId now q E hw htext hfresh hext hlat
  have hfst := add_learning_fst_some s text mn ag cat extra w newId now q E hw htext hlat
  have hfreshmap : ∀ x ∈ s.map (mark_superseded E.id newId now), x.id ≠ newId := by
    intro x hx
    rcases List.mem_map.mp hx with ⟨y, hy, rfl⟩
    rw [mark_superseded_id]
    exact hfresh y hy
  rw [hfst, get_learning_metadata_append hfreshmap]
  show dictGet (dictUpdate _ extra) "conflict_detected" = _ ↔ _
  rw [dictGet_update_of_none _ hext, base_meta_conflict]
  simp

/-- Witness for `add_learning_conflict_iff_normalized_diff` at a concrete
store with one active version of the key. -/
theorem add_learning_conflict_iff_normalized_diff_witness :
    (("w" : String) ≠ "" ∧ pyStrip "Port is 80 " ≠ ""
      ∧ (∀ x ∈ [(⟨"old1", "Port is 80",
          [("learning_key", .str "w:m::general")]⟩ : Entry)], x.id ≠ "id2")
      ∧ dictGet ([] : MetaDict) "conflict_detected" = none
      ∧ find_latest_learning_version
          [(⟨"old1", "Port is 80", [("learning_key", .str "w:m::general")]⟩ : Entry)]
          (add_learning_key "w" "m" "general")
        = some ⟨"old1", "Port is 80", [("learning_key", .str "w:m::general")]⟩)
    ∧ (dictGet (get_learning_metadata
        ((add_learning [(⟨"old1", "Port is 80",
            [("learning_key", .str "w:m::general")]⟩ : Entry)]
          "Port is 80 " "m" "a" "general" [] (some "w") "id2" "t1" (.ok [])).1) "id2")
        "conflict_detected" = some (.bool false)
      ↔ pyStrip "Port is 80" = pyStrip "Port is 80 ") :=
  ⟨⟨by decide, by decide, by decide, rfl, rfl⟩,
    add_learning_conflict_iff_normalized_diff
      [⟨"old1", "Port is 80", [("learning_key", .str "w:m::general")]⟩]
      "Port is 80 " "m" "a" "general" [] "w" "id2" "t1" (.ok [])
      ⟨"old1", "Port is 80", [("learning_key", .str "w:m::general")]⟩
      (by decide) (by decide) (by decide) rfl rfl⟩

/-- C9 (refutation of "never expired"): the caller metadata merge lets a
numeric `created_at` override the ISO string `add_learning` writes, and
`get_expired_ids` then classifies the entry as expired and
`cleanup_expired` hard-deletes it — so an entry written through
`MemoryStore` can be returned as expired. -/
theorem numeric_created_at_override_expires :
    (add_learning [] "net fact" "m" "a" "general" [("created_at", .num 1)] (some "w")
        "id1" "t0" (.ok [])).2 = "id1"
    ∧ dictGet (get_learning_metadata
        ((add_learning [] "net fact" "m" "a" "general" [("created_at", .num 1)] (some "w")
          "id1" "t0" (.ok [])).1) "id1") "created_at" = some (.num 1)
    ∧ get_expired_ids
        ((add_learning [] "net fact" "m" "a" "general" [("created_at", .num 1)] (some "w")
          "id1" "t0" (.ok [])).1) 90 (90 * 86400 + 2) = ["id1"]
    ∧ (cleanup_expired
        ((add_learning [] "net fact" "m" "a" "general" [("created_at", .num 1)] (some "w")
          "id1" "t0" (.ok [])).1) 90 (90 * 86400 + 2)).1 = [] := by
  obtain ⟨e, hs, hq, hid⟩ : ∃ e : Entry,
      (add_learning [] "net fact" "m" "a" "general" [("created_at", .num 1)] (some "w")
        "id1" "t0" (.ok [])).1 = [e]
      ∧ created_at_num e = some 1 ∧ e.id = "id1" := ⟨_, rfl, rfl, rfl⟩
  have hexp : get_expired_ids
      ((add_learning [] "net fact" "m" "a" "general" [("created_at", .num 1)] (some "w")
        "id1" "t0" (.ok [])).1) 90 (90 * 86400 + 2) = ["id1"] := by
    rw [hs, get_expired_singleton e 1 90 (90 * 86400 + 2) hq (by norm_num)
      (by constructor <;> norm_num), hid]
  refine ⟨rfl, rfl, hexp, ?_⟩
  rw [cleanup_expired, hexp, hs]
  simp [hid]

/-- C9 (amended): `get_expired_ids` classifies an entry as expired only
when its stored `created_at` is numeric, positive and below the cutoff;
an entry whose `created_at` is a string or absent is never expired and is
kept by `cleanup_expired`; and `add_learning` writes `created_at` as the
ISO timestamp string whenever the caller metadata does not override it. -/
theorem get_expired_ids_only_numeric_created_at :
    (∀ (entries : Store) (ttl_days : Int) (now_ts : ℚ) (id : String),
      id ∈ get_expired_ids entries ttl_days now_ts →
      0 < ttl_days ∧ ∃ e ∈ entries, e.id = id ∧ ∃ q : ℚ, created_at_num e = some q ∧
        0 < q ∧ q < now_ts - (ttl_days : ℚ) * 86400)
    ∧ (∀ (entries : Store) (ttl_days : Int) (now_ts : ℚ) (e : Entry),
        (entries.map Entry.id).Nodup → e ∈ entries → created_at_num e = none →
        e.id ∉ get_expired_ids entries ttl_days now_ts
        ∧ e ∈ (cleanup_expired entries ttl_days now_ts).1)
    ∧ (∀ (s : Store) (text mn ag cat : String) (extra : MetaDict)
        (w newId now : String) (q : Except Unit (List Hit)),
        w ≠ "" → pyStrip text ≠ "" → (∀ x ∈ s, x.id ≠ newId) →
        dictGet extra "created_at" = none →
        dictGet (get_learning_metadata
          ((add_learning s text mn ag cat extra (some w) newId now q).1) newId)
          "created_at" = some (.str now)) := by
  refine ⟨?_, ?_, ?_⟩
  · intro entries ttl_days now_ts id hid
    rw [get_expired_ids] at hid
    by_cases httl : ttl_days ≤ 0
    · rw [if_pos httl] at hid
      exact absurd hid (by simp)
    · rw [if_neg httl] at hid
      refine ⟨by omega, ?_⟩
      simp only [List.mem_filterMap] at hid
      rcases hid with ⟨e, he, hfe⟩
      rcases hq : created_at_num e with _ | qv
      · rw [hq] at hfe
        exact absurd hfe (by simp)
      · simp only [hq] at hfe
        by_cases hc : 0 < qv ∧ qv < now_ts - (ttl_days : ℚ) * 86400
        · rw [if_pos hc] at hfe
          exact ⟨e, he, (Option.some.inj hfe), qv, hq, hc.1, hc.2⟩
        · rw [if_neg hc] at hfe
          exact absurd hfe (by simp)
  · intro entries ttl_days now_ts e hnodup he hnone
    have hnotmem : e.id ∉ get_expired_ids entries ttl_days now_ts := by
      intro hmem
      rw [get_expired_ids] at hmem
      by_cases httl : ttl_days ≤ 0
      · rw [if_pos httl] at hmem
        exact absurd hmem (by simp)
      · rw [if_neg httl] at hmem
        simp only [List.mem_filterMap] at hmem
        rcases hmem with ⟨e', he', hfe⟩
        rcases hq : created_at_num e' with _ | qv
        · rw [hq] at hfe
          exact absurd hfe (by simp)
        · simp only [hq] at hfe
          by_cases hc : 0 < qv ∧ qv < now_ts - (ttl_days : ℚ) * 86400
          · rw [if_pos hc] at hfe
            have hideq : e'.id = e.id := Option.some.inj hfe
            have : e' = e := List.inj_on_of_nodup_map hnodup he' he hideq
            subst this
            rw [hnone] at hq
            exact absurd hq (by simp)
          · rw [if_neg hc] at hfe
            exact absurd hfe (by simp)
    refine ⟨hnotmem, ?_⟩
    rw [cleanup_expired]
    by_cases hemp : (get_expired_ids entries ttl_days now_ts).isEmpty
    · rw [if_pos hemp]
      exact he
    · rw [if_neg hemp]
      refine List.mem_filter.mpr ⟨he, ?_⟩
      simp only [decide_eq_true_eq]
      intro hcon
      exact hnotmem (List.mem_of_elem_eq_true hcon)
  · intro s text mn ag cat extra w newId now q hw htext hfresh hext
    rcases hlat : find_latest_learning_version s (add_learning_key w mn cat) with _ | E
    · have hfst := add_learning_fst_none s text mn ag cat extra w newId now q hw htext hlat
      rw [hfst, get_learning_metadata_append hfresh]
      show dictGet (dictUpdate _ extra) "created_at" = _
      rw [dictGet_update_of_none _ hext, base_meta_created]
    · have hfst := add_learning_fst_some s text mn ag cat extra w newId now q E hw htext hlat
      have hfreshmap : ∀ x ∈ s.map (mark_superseded E.id newId now), x.id ≠ newId := by
        intro x hx
        rcases List.mem_map.mp hx with ⟨y, hy, rfl⟩
        rw [mark_superseded_id]
        exact hfresh y hy
      rw [hfst, get_learning_metadata_append hfreshmap]
      show dictGet (dictUpdate _ extra) "created_at" = _
      rw [dictGet_update_of_none _ hext, base_meta_created]

/-- Witness for `get_expired_ids_only_numeric_created_at` at a concrete
entry with a string `created_at`. -/
theorem get_expired_ids_only_numeric_created_at_witness :
    (([(⟨"e1", "d", [("created_at", .str "2026-01-01T00:00:00+00:00")]⟩ : Entry)].map
        Entry.id).Nodup
      ∧ (⟨"e1", "d", [("created_at", .str "2026-01-01T00:00:00+00:00")]⟩ : Entry)
          ∈ [(⟨"e1", "d", [("created_at", .str "2026-01-01T00:00:00+00:00")]⟩ : Entry)]
      ∧ created_at_num (⟨"e1", "d", [("created_at", .str "2026-01-01T00:00:00+00:00")]⟩ : Entry)
          = none)
    ∧ (("e1" : String) ∉ get_expired_ids
        [(⟨"e1", "d", [("created_at", .str "2026-01-01T00:00:00+00:00")]⟩ : Entry)] 90 1000000
      ∧ (⟨"e1", "d", [("created_at", .str "2026-01-01T00:00:00+00:00")]⟩ : Entry)
          ∈ (cleanup_expired
            [(⟨"e1", "d", [("created_at", .str "2026-01-01T00:00:00+00:00")]⟩ : Entry)]
            90 1000000).1) :=
  ⟨⟨by decide, by decide, rfl⟩,
    (get_expired_ids_only_numeric_created_at.2.1
      [⟨"e1", "d", [("created_at", .str "2026-01-01T00:00:00+00:00")]⟩] 90 1000000
      ⟨"e1", "d", [("created_at", .str "2026-01-01T00:00:00+00:00")]⟩
      (by decide) (by decide) rfl)⟩

/-- **C6**: For every graph, including graphs containing cycles, `traverse`
terminates (the while-loop finishes within the fuel `traverse_fuel`, so the
result is `some`), visits each node id at most once (the recorded node ids
are pairwise distinct), records at most `max_nodes` nodes, and never
records a node at a depth greater than the effective depth limit
`min(max_depth or GRAPH_MAX_DEPTH, GRAPH_MAX_DEPTH)`. -/
theorem traverse_terminates_within_bounds (g : Graph) (start : String)
    (max_depth : Option ℕ) (types : Option (List String)) (max_nodes : ℕ) :
    ∃ res, traverse g start max_depth types max_nodes = some res
      ∧ (res.nodes.map TravNode.node_id).Nodup
      ∧ res.nodes.length ≤ max_nodes
      ∧ ∀ n ∈ res.nodes, n.depth ≤ effective_depth_limit max_depth := by
  have hsome := bfs_loop_some g start types (effective_depth_limit max_depth) max_nodes
    (traverse_fuel g start) (init_bfs_state start) (init_measure g start)
  rcases hst : bfs_loop g types (effective_depth_limit max_depth) max_nodes
      (traverse_fuel g start) (init_bfs_state start) with _ | st
  · rw [hst] at hsome
    exact absurd hsome (by simp)
  · have hinv := bfs_loop_inv g types (effective_depth_limit max_depth) max_nodes
      (traverse_fuel g start) (init_bfs_state start)
      (init_inv (effective_depth_limit max_depth) max_nodes start) st hst
    refine ⟨{ start_node_id := start, nodes := st.nodes,
              total_relationships := st.total_relationships,
              max_depth_reached := st.max_depth_reached }, ?_, ?_, ?_, ?_⟩
    · have hdef : traverse g start max_depth types max_nodes
          = (bfs_loop g types (effective_depth_limit max_depth) max_nodes
              (traverse_fuel g start) (init_bfs_state start)).map
            (fun st => { start_node_id := start, nodes := st.nodes,
                         total_relationships := st.total_relationships,
                         max_depth_reached := st.max_depth_reached }) := rfl
      rw [hdef, hst]
      rfl
    · exact hinv.1.of_append_left
    · exact hinv.2.2.2.2
    · exact hinv.2.2.2.1
